import Mathlib

/-!
Verification of the retrieval engine of the simple-search-rank repository:
text normalization, TF-IDF and BM25 scoring, result assembly, and snippet
extraction, modelled shallowly from the Python sources under backend/app.

Modelling conventions:
  - Python dicts are insertion-ordered association lists;
  - machine floats are idealized as real numbers (scores) and exact
    rationals (edit similarity);
  - wall-clock durations are external nonnegative inputs.
-/

namespace SSR

/-! ## Preprocessing (backend/app/services/preprocessing.py)

The service is modelled in its fallback configuration: the spaCy language
model is an external binary resource, so when it is unavailable the
constructor sets use_spacy to False and every call takes the
stemmer/correction branch.  The stemmer (NLTK RSLPStemmer), the manual
correction table and the STOPWORDS constant (whose module
app/utils/constants.py is not among the sources) are external data and are
therefore fields of the modelled service. -/

/-- Uppercase/lowercase pairs of the accented Portuguese letters handled by
the pipeline. -/
def accentPairs : List (Char × Char) :=
  [('Á', 'á'), ('É', 'é'), ('Í', 'í'), ('Ó', 'ó'), ('Ú', 'ú'), ('Â', 'â'),
   ('Ê', 'ê'), ('Î', 'î'), ('Ô', 'ô'), ('Û', 'û'), ('Ã', 'ã'), ('Õ', 'õ'),
   ('Ç', 'ç')]

/-- Models Python str.lower character-wise on the alphabet this code base
manipulates: ASCII letters plus the accented Portuguese letters.  Every
uppercase letter of that alphabet (ASCII or accented Latin-1) is mapped to
its lowercase form, which is its code point plus 32. -/
def pyLower (c : Char) : Char :=
  if ('A' ≤ c && c ≤ 'Z') || (accentPairs.map Prod.fst).contains c then
    Char.ofNat (c.toNat + 32)
  else c

/-- Characters kept by the cleaning regexes of clean_text and
normalize_term: lowercase ASCII letters and the accented letters of the
character class a-z, á, é, í, ó, ú, â, ê, î, ô, û, ã, õ, ç. -/
def allowedChar (c : Char) : Bool :=
  ('a' ≤ c && c ≤ 'z') || (accentPairs.map Prod.snd).contains c

/-- Python str whitespace, as used by str.split and str.strip. -/
def isPySpace (c : Char) : Bool :=
  c = ' ' || c = '\t' || c = '\n' || c = '\r' || c = '\x0b' || c = '\x0c'

/-- Splits a character list into the maximal runs of characters not
satisfying the separator predicate, dropping empty runs; the accumulator
holds the current run reversed.  This is Python str.split (with
p = isPySpace). -/
def splitAux (p : Char → Bool) : List Char → List Char → List (List Char)
  | [], acc => if acc = [] then [] else [acc.reverse]
  | c :: cs, acc =>
    if p c then (if acc = [] then splitAux p cs [] else acc.reverse :: splitAux p cs [])
    else splitAux p cs (c :: acc)

/-- Python tokens of a string: str.split() on whitespace. -/
def pyTokens (l : List Char) : List (List Char) := splitAux isPySpace l []

/-- Joins character runs with single spaces. -/
def joinRuns : List (List Char) → List Char
  | [] => []
  | [w] => w
  | w :: w2 :: ws => w ++ ' ' :: joinRuns (w2 :: ws)

/-- PreprocessingService.clean_text, lines 83-97: lower-case, replace every
character outside the letters-and-space class by a space, collapse
whitespace runs and strip.  After the replacement the only whitespace
character left is the plain space, so collapsing and stripping is the same
as splitting into tokens and rejoining them with single spaces. -/
def clean_text (text : String) : String :=
  let repl := text.data.map (fun c =>
    let c := pyLower c
    if allowedChar c || c = ' ' then c else ' ')
  String.mk (joinRuns (splitAux (fun c => c = ' ') repl []))

/-- PreprocessingService.normalize_term, lines 99-104: lower-case, strip,
then delete every character outside the letter class (the stripped
whitespace is deleted by the regex as well, so the strip is subsumed). -/
def normalize_term (term : String) : String :=
  String.mk ((term.data.map pyLower).filter allowedChar)

/-- State of the modelled PreprocessingService in its fallback (non-spaCy)
configuration: an optional stemmer, the manual correction table and the
stopword set, which the constructor loads from external resources. -/
structure PreprocessingService where
  stemmer : Option (String → String)
  lematizadas_corrigidas : List (String × String)
  stopwords : List String

/-- Insert-or-increment on an insertion-ordered association table:
models d[k] = d.get(k, 0) + 1 on a Python dict. -/
def bump (tab : List (String × Nat)) (t : String) : List (String × Nat) :=
  if (tab.lookup t).isSome then
    tab.map (fun p => if p.1 = t then (p.1, p.2 + 1) else p)
  else tab ++ [(t, 1)]

/-- PreprocessingService.process_text, lines 106-143, fallback branch:
clean the text, split it, and for every word keep its normalized form when
it is longer than two characters and not a stopword, mapping it through the
correction table or the stemmer, counting occurrences. -/
def process_text (svc : PreprocessingService) (text : String) : List (String × Nat) :=
  let texto_limpo := clean_text text
  (pyTokens texto_limpo.data).foldl (fun termos palavra =>
    let palavra_normalizada := normalize_term (String.mk palavra)
    if palavra_normalizada.length > 2 && !(svc.stopwords.contains palavra_normalizada) then
      let termo_final :=
        match svc.lematizadas_corrigidas.lookup palavra_normalizada with
        | some c => c
        | none =>
          match svc.stemmer with
          | some st => st palavra_normalizada
          | none => palavra_normalizada
      bump termos termo_final
    else termos) []

/-- PreprocessingService.process_query, lines 145-180, fallback branch:
lower-case and split the query (without clean_text), and map each token
through the same normalize-filter-correct-stem steps as process_text,
keeping the order and multiplicity of the surviving tokens. -/
def process_query (svc : PreprocessingService) (query : String) : List String :=
  (pyTokens (query.data.map pyLower)).filterMap (fun termo =>
    let termo_limpo := normalize_term (String.mk termo)
    if termo_limpo.length > 2 && !(svc.stopwords.contains termo_limpo) then
      some (match svc.lematizadas_corrigidas.lookup termo_limpo with
        | some c => c
        | none =>
          match svc.stemmer with
          | some st => st termo_limpo
          | none => termo_limpo)
    else none)

/-- Occurrence-count table of a list of terms, in first-occurrence order:
the table process_text would produce from a document containing exactly
those already-canonical terms. -/
def toCountTable (l : List String) : List (String × Nat) := l.foldl bump []

/-! ## Lemmas about the normalization pipeline -/

lemma pyLower_of_allowed {c : Char} (h : allowedChar c = true) : pyLower c = c := by
  have hmem : ('a' ≤ c ∧ c ≤ 'z') ∨ c ∈ accentPairs.map Prod.snd := by
    unfold allowedChar at h
    simp only [Bool.or_eq_true, Bool.and_eq_true, decide_eq_true_eq] at h
    rcases h with h | h
    · exact Or.inl h
    · exact Or.inr (by simpa using h)
  rcases hmem with ⟨h1, h2⟩ | hmem
  · have hcond : ¬((('A' ≤ c && c ≤ 'Z') || (accentPairs.map Prod.fst).contains c) = true) := by
      simp only [Bool.or_eq_true, Bool.and_eq_true, decide_eq_true_eq, not_or, not_and]
      refine ⟨fun _ hZ => absurd (h1.trans hZ) (by decide), ?_⟩
      intro hc
      have hm : c ∈ accentPairs.map Prod.fst := by simpa using hc
      fin_cases hm <;> exact absurd h2 (by decide)
    unfold pyLower
    rw [if_neg hcond]
  · fin_cases hmem <;> decide

lemma not_pySpace_of_allowed {c : Char} (h : allowedChar c = true) :
    isPySpace c = false := by
  rw [Bool.eq_false_iff]
  intro htrue
  unfold isPySpace at htrue
  simp only [Bool.or_eq_true, decide_eq_true_eq] at htrue
  rcases htrue with ((((rfl | rfl) | rfl) | rfl) | rfl) | rfl <;>
    exact absurd h (by decide)

lemma not_space_eq_of_allowed {c : Char} (h : allowedChar c = true) :
    (decide (c = ' ') : Bool) = false := by
  rcases Bool.eq_false_or_eq_true (decide (c = ' ')) with h' | h'
  · rw [decide_eq_true_eq] at h'
    subst h'
    exact absurd h (by decide)
  · exact h'

lemma splitAux_append_nonsep (p : Char → Bool) (w : List Char) :
    ∀ (l acc : List Char), (∀ c ∈ w, p c = false) →
      splitAux p (w ++ l) acc = splitAux p l (w.reverse ++ acc) := by
  induction w with
  | nil => intro l acc _; simp
  | cons c w ih =>
    intro l acc hw
    have hc : p c = false := hw c (by simp)
    simp only [List.cons_append, splitAux, hc, Bool.false_eq_true, if_false,
      List.append_eq]
    rw [ih l (c :: acc) (fun d hd => hw d (by simp [hd]))]
    simp [List.append_assoc]

lemma splitAux_join (p : Char → Bool) (hsep : p ' ' = true) :
    ∀ ws : List (List Char), (∀ w ∈ ws, w ≠ [] ∧ ∀ c ∈ w, p c = false) →
      splitAux p (joinRuns ws) [] = ws
  | [], _ => rfl
  | [w], h => by
    obtain ⟨hne, hw⟩ := h w (by simp)
    show splitAux p (joinRuns [w]) [] = [w]
    rw [joinRuns, show (w : List Char) = w ++ [] from (List.append_nil w).symm,
      splitAux_append_nonsep p w [] [] hw]
    simp [splitAux, hne]
  | w :: w2 :: ws, h => by
    obtain ⟨hne, hw⟩ := h w (by simp)
    have ih := splitAux_join p hsep (w2 :: ws) (fun x hx => h x (by simp [hx]))
    show splitAux p (w ++ ' ' :: joinRuns (w2 :: ws)) [] = w :: w2 :: ws
    rw [splitAux_append_nonsep p w _ [] hw]
    simp only [splitAux, hsep, if_true, List.append_nil]
    rw [if_neg (by simp [hne]), List.reverse_reverse, ih]

lemma splitAux_congr (p q : Char → Bool) :
    ∀ (l acc : List Char), (∀ c ∈ l, p c = q c) →
      splitAux p l acc = splitAux q l acc := by
  intro l
  induction l with
  | nil => intro acc _; rfl
  | cons c cs ih =>
    intro acc h
    have hc : p c = q c := h c (by simp)
    have ht : ∀ d ∈ cs, p d = q d := fun d hd => h d (by simp [hd])
    simp only [splitAux, hc]
    rcases Bool.eq_false_or_eq_true (q c) with h' | h' <;> simp [h', ih _ ht]

lemma splitAux_token_chars (p : Char → Bool) :
    ∀ (l acc w : List Char), w ∈ splitAux p l acc → ∀ c ∈ w, c ∈ l ∨ c ∈ acc := by
  intro l
  induction l with
  | nil =>
    intro acc w hw c hc
    unfold splitAux at hw
    rcases Decidable.em (acc = []) with h' | h'
    · simp [h'] at hw
    · rw [if_neg h'] at hw
      simp only [List.mem_singleton] at hw
      subst hw
      exact Or.inr (by simpa using hc)
  | cons d ds ih =>
    intro acc w hw c hc
    unfold splitAux at hw
    rcases Bool.eq_false_or_eq_true (p d) with hd | hd
    · rw [if_pos hd] at hw
      rcases Decidable.em (acc = []) with ha | ha
      · rw [if_pos ha] at hw
        rcases ih [] w hw c hc with h' | h'
        · exact Or.inl (by simp [h'])
        · simp at h'
      · rw [if_neg ha] at hw
        rcases List.mem_cons.mp hw with h' | h'
        · subst h'
          exact Or.inr (by simpa using hc)
        · rcases ih [] w h' c hc with h'' | h''
          · exact Or.inl (by simp [h''])
          · simp at h''
    · rw [if_neg (by simp [hd])] at hw
      rcases ih (d :: acc) w hw c hc with h' | h'
      · exact Or.inl (by simp [h'])
      · rcases List.mem_cons.mp h' with h'' | h''
        · exact Or.inl (by simp [h''])
        · exact Or.inr h''

lemma splitAux_token_nonsep (p : Char → Bool) :
    ∀ (l acc w : List Char), (∀ c ∈ acc, p c = false) → w ∈ splitAux p l acc →
      w ≠ [] ∧ ∀ c ∈ w, p c = false := by
  intro l
  induction l with
  | nil =>
    intro acc w hacc hw
    unfold splitAux at hw
    rcases Decidable.em (acc = []) with h' | h'
    · simp [h'] at hw
    · rw [if_neg h'] at hw
      simp only [List.mem_singleton] at hw
      subst hw
      exact ⟨by simpa using h', fun c hc => hacc c (by simpa using hc)⟩
  | cons d ds ih =>
    intro acc w hacc hw
    unfold splitAux at hw
    rcases Bool.eq_false_or_eq_true (p d) with hd | hd
    · rw [if_pos hd] at hw
      rcases Decidable.em (acc = []) with ha | ha
      · rw [if_pos ha] at hw
        exact ih [] w (by simp) hw
      · rw [if_neg ha] at hw
        rcases List.mem_cons.mp hw with h' | h'
        · subst h'
          exact ⟨by simpa using ha, fun c hc => hacc c (by simpa using hc)⟩
        · exact ih [] w (by simp) h'
    · rw [if_neg (by simp [hd])] at hw
      exact ih (d :: acc) w (by
        intro c hc
        rcases List.mem_cons.mp hc with h' | h'
        · subst h'; exact hd
        · exact hacc c h') hw

lemma foldl_filterMap_bump {α : Type} (cond : α → Bool) (h : α → String) :
    ∀ (ws : List α) (tab : List (String × Nat)),
      ws.foldl (fun t w => if cond w then bump t (h w) else t) tab =
      (ws.filterMap (fun w => if cond w then some (h w) else none)).foldl bump tab := by
  intro ws
  induction ws with
  | nil => intro tab; rfl
  | cons w ws ih =>
    intro tab
    rcases Bool.eq_false_or_eq_true (cond w) with hc | hc <;>
      simp [List.filterMap_cons, hc, ih]

lemma clean_text_tokens_eq (s : String)
    (H : ∀ c ∈ s.data, allowedChar (pyLower c) = true ∨ c = ' ') :
    pyTokens (clean_text s).data = pyTokens (s.data.map pyLower) := by
  have hrepl : s.data.map (fun c =>
      let c := pyLower c
      if allowedChar c || c = ' ' then c else ' ') = s.data.map pyLower := by
    apply List.map_congr_left
    intro c hc
    rcases H c hc with h | rfl
    · simp [h]
    · decide
  have Hmap : ∀ c ∈ s.data.map pyLower, allowedChar c = true ∨ c = ' ' := by
    intro c hc
    rw [List.mem_map] at hc
    obtain ⟨c0, hc0, rfl⟩ := hc
    rcases H c0 hc0 with h | rfl
    · exact Or.inl h
    · exact Or.inr (by decide)
  have hws : ∀ w ∈ splitAux (fun c => c = ' ') (s.data.map pyLower) [],
      w ≠ [] ∧ ∀ c ∈ w, isPySpace c = false := by
    intro w hw
    obtain ⟨hne, hchars⟩ :=
      splitAux_token_nonsep (fun c => c = ' ') (s.data.map pyLower) [] w (by simp) hw
    refine ⟨hne, fun c hc => ?_⟩
    have hmem : c ∈ s.data.map pyLower := by
      rcases splitAux_token_chars (fun c => c = ' ') (s.data.map pyLower) [] w hw c hc
        with h' | h'
      · exact h'
      · simp at h'
    rcases Hmap c hmem with h' | rfl
    · exact not_pySpace_of_allowed h'
    · exact absurd (hchars ' ' hc) (by decide)
  show pyTokens (String.mk (joinRuns _) : String).data = _
  unfold pyTokens
  show splitAux isPySpace (joinRuns (splitAux (fun c => c = ' ')
    (s.data.map (fun c =>
      let c := pyLower c
      if allowedChar c || c = ' ' then c else ' ')) [])) [] = _
  rw [hrepl, splitAux_join isPySpace (by decide) _ hws]
  refine (splitAux_congr isPySpace (fun c => c = ' ') (s.data.map pyLower) [] ?_).symm
  intro c hc
  show isPySpace c = decide (c = ' ')
  rcases Hmap c hc with h' | rfl
  · rw [not_pySpace_of_allowed h', not_space_eq_of_allowed h']
  · decide

/-- C6: on input made only of characters whose lower-cased form is in the
letter alphabet, or spaces, the document pipeline process_text and the
query pipeline process_query agree: the multiset of canonical terms the
query pipeline produces is exactly the term-frequency table the document
pipeline produces, with the same cleaning, the same length filter, the same
stopword set and the same correction/stemmer reduction.  (On words
containing other characters the two pipelines disagree, which is the
content of the counterexample.) -/
theorem C6_pipelines_agree (svc : PreprocessingService) (s : String)
    (H : ∀ c ∈ s.data, allowedChar (pyLower c) = true ∨ c = ' ') :
    toCountTable (process_query svc s) = process_text svc s := by
  have htok := clean_text_tokens_eq s H
  show (process_query svc s).foldl bump [] = process_text svc s
  simp only [process_query, process_text]
  rw [htok]
  exact (foldl_filterMap_bump
    (fun w : List Char =>
      (normalize_term (String.mk w)).length > 2 &&
        !(svc.stopwords.contains (normalize_term (String.mk w))))
    (fun w : List Char =>
      match svc.lematizadas_corrigidas.lookup (normalize_term (String.mk w)) with
      | some c => c
      | none =>
        match svc.stemmer with
        | some st => st (normalize_term (String.mk w))
        | none => normalize_term (String.mk w))
    (pyTokens (s.data.map pyLower)) []).symm

/-- C6 counterexample: the word "ab,cde" is normalized differently by the
two pipelines.  The document pipeline replaces the comma by a space and
splits the word into "ab" (discarded, too short) and "cde"; the query
pipeline deletes the comma and keeps the single joined term "abcde". -/
theorem C6_counterexample :
    toCountTable (process_query ⟨none, [], []⟩ "ab,cde") ≠
      process_text ⟨none, [], []⟩ "ab,cde" := by decide

/-- C6 witness: both pipelines produce the same table on a plain query. -/
theorem C6_witness :
    toCountTable (process_query ⟨none, [], []⟩ "o gato correu") =
      process_text ⟨none, [], []⟩ "o gato correu" :=
  C6_pipelines_agree ⟨none, [], []⟩ "o gato correu" (by decide)

/-! ## Snippet extraction (backend/app/utils/text_processing.py)

extract_snippet works on the lower-cased text for searching and slices the
original text for output.  difflib.SequenceMatcher is modelled with exact
rational arithmetic instead of floats, without the autojunk heuristic
(which only engages on strings of length at least 200). -/

/-- A word character in the sense of the regexes in extract_snippet:
Python re \w (letters, digits, underscore; the accented letters of the
pattern classes are Unicode word characters as well). -/
def isWordChar (c : Char) : Bool :=
  c.isAlpha || c.isDigit || c = '_' ||
    (accentPairs.map Prod.fst).contains c || (accentPairs.map Prod.snd).contains c

/-- Candidate surface terms of the original query, lines 44-52: lower-case,
split on whitespace, delete non-word characters, keep words longer than
two characters. -/
def snippet_terms (original_query : Option String) : List (List Char) :=
  match original_query with
  | none => []
  | some q =>
    (pyTokens (q.data.map pyLower)).filterMap (fun word =>
      let word_clean := word.filter isWordChar
      if 2 < word_clean.length then some word_clean else none)

/-- Whether term occurs in text at position i as a whole word: the regex
match of a word-boundary-delimited literal at offset i, for a nonempty term
made of word characters. -/
def wholeWordAt (text : List Char) (i : Nat) (term : List Char) : Bool :=
  !(term.isEmpty) && ((text.drop i).take term.length == term) &&
    (i == 0 || !(isWordChar (text.getD (i - 1) ' '))) &&
    (i + term.length == text.length || !(isWordChar (text.getD (i + term.length) ' ')))

/-- Position of the first whole-word occurrence of term in text:
re.search of the word-boundary pattern, lines 61-63 and 107-109. -/
def findWholeWord (text term : List Char) : Option Nat :=
  (List.range (text.length + 1)).find? (fun i => wholeWordAt text i term)

/-- Exact pass, lines 59-69: scan the candidate terms in order, keep the
smallest first-occurrence position; every candidate that improves the
running minimum is appended to matched_words.  State: running best
position (initially the text length), best term, matched words. -/
def exact_pass (text : List Char) (terms : List (List Char)) :
    Nat × Option (List Char) × List (List Char) :=
  terms.foldl (fun st orig_term =>
    match findWholeWord text orig_term with
    | some pos =>
      if pos < st.1 then (pos, some orig_term, st.2.2 ++ [orig_term]) else st
    | none => st) (text.length, none, [])

/-- Words of the text, line 74: re.findall of word-character runs. -/
def text_words (text : List Char) : List (List Char) :=
  splitAux (fun c => !(isWordChar c)) text []

/-- Length of the longest common prefix of two character lists. -/
def commonPrefixLen : List Char → List Char → Nat
  | a :: as, b :: bs => if a = b then commonPrefixLen as bs + 1 else 0
  | _, _ => 0

/-- Longest matching block of two character lists, as found by
difflib.SequenceMatcher.find_longest_match without junk: the triple
(i, j, size) of the longest common contiguous block, ties resolved in
favour of the smallest i, then the smallest j. -/
def longestMatch (a b : List Char) : Nat × Nat × Nat :=
  (List.range a.length).foldl (fun st i =>
    (List.range b.length).foldl (fun st j =>
      let k := commonPrefixLen (a.drop i) (b.drop j)
      if st.2.2 < k then (i, j, k) else st) st) (0, 0, 0)

/-- Total size of the matching blocks of difflib.SequenceMatcher
(Ratcliff-Obershelp): the longest block plus, recursively, the matches to
its left and to its right.  The fuel argument only drives termination;
every recursive call strictly decreases the combined length, so any fuel
of at least that combined length computes the true total. -/
def matchTotal : Nat → List Char → List Char → Nat
  | 0, _, _ => 0
  | fuel + 1, a, b =>
    let m := longestMatch a b
    if m.2.2 = 0 then 0
    else
      matchTotal fuel (a.take m.1) (b.take m.2.1) + m.2.2 +
        matchTotal fuel (a.drop (m.1 + m.2.2)) (b.drop (m.2.1 + m.2.2))

/-- difflib.SequenceMatcher(None, a, b).ratio(), as an exact rational:
twice the total match size divided by the combined length (1.0 when both
strings are empty), built with mkRat so that it evaluates by kernel
reduction. -/
def simRatio (a b : List Char) : ℚ :=
  if a.length + b.length = 0 then 1
  else mkRat (2 * (matchTotal (a.length + b.length) a b : Int)) (a.length + b.length)

/-- State of the fuzzy-matching loop, lines 76-79: best similarity so far
(initially the 0.70 threshold), its first-occurrence position (initially
the text length) and the best matching text word. -/
structure FuzzyState where
  best_similarity : ℚ
  best_pos : Nat
  best_word : Option (List Char)
deriving DecidableEq

/-- One iteration of the inner fuzzy loop, lines 94-115: skip words whose
length is outside int(0.7*len)..int(1.3*len) or whose first character
differs, compute the similarity ratio, and accept it when it reaches the
running best, replacing the best on a strictly larger similarity or on an
equal similarity at a smaller first-occurrence position. -/
def fuzzy_step (text search_term : List Char) (st : FuzzyState)
    (word : List Char) : FuzzyState :=
  if word.length < 7 * search_term.length / 10 ||
      13 * search_term.length / 10 < word.length then st
  else if !(search_term.isEmpty) && !(word.isEmpty) &&
      search_term.getD 0 ' ' != word.getD 0 ' ' then st
  else
    let similarity := simRatio search_term word
    if st.best_similarity ≤ similarity then
      match findWholeWord text word with
      | some pos =>
        if st.best_similarity < similarity ∨
            (similarity = st.best_similarity ∧ pos < st.best_pos) then
          ⟨similarity, pos, some word⟩
        else st
      | none => st
    else st

/-- The word-eligibility filter of the fuzzy loop: length within the
floored window int(0.7*len)..int(1.3*len) and, for nonempty strings, an
equal first character. -/
def eligible (search_term word : List Char) : Bool :=
  !(word.length < 7 * search_term.length / 10 ||
      13 * search_term.length / 10 < word.length) &&
  !(!(search_term.isEmpty) && !(word.isEmpty) &&
      search_term.getD 0 ' ' != word.getD 0 ' ')

/-- Fuzzy pass, lines 71-124: fold fuzzy_step over every candidate term
and every text word, starting from the 0.70 threshold. -/
def fuzzy_pass (text : List Char) (search_terms : List (List Char)) : FuzzyState :=
  let words_in_text := text_words text
  search_terms.foldl (fun st search_term =>
    words_in_text.foldl (fuzzy_step text search_term) st)
    ⟨mkRat 7 10, text.length, none⟩

/-- Characters the start-of-window adjustment stops at, line 135. -/
def wsChars : List Char := [' ', '\n', '\t']

/-- Characters the end-of-window adjustment stops at, line 144. -/
def stopChars : List Char := [' ', '\n', '\t', '.', ',', ';', '!', '?']

/-- Start-of-window adjustment, lines 132-138: walk left from the desired
start until a whitespace character or the start of the text; when stopped
on a whitespace, start just after it. -/
def adjust_start (text : List Char) : Nat → Nat
  | 0 => 0
  | i + 1 => if wsChars.contains (text.getD (i + 1) ' ') then i + 2 else adjust_start text i

/-- End-of-window adjustment, lines 140-147, with explicit fuel: walk right
from the desired end until a whitespace or punctuation character (which is
included) or the end of the text. -/
def adjust_end_fuel : Nat → List Char → Nat → Nat
  | 0, _, e => e
  | fuel + 1, text, e =>
    if text.length ≤ e then e
    else if stopChars.contains (text.getD e ' ') then e + 1
    else adjust_end_fuel fuel text (e + 1)

/-- End-of-window adjustment with sufficient fuel. -/
def adjust_end (text : List Char) (e : Nat) : Nat :=
  adjust_end_fuel (text.length + 1 - e) text e

/-- Python str.strip() on a character list. -/
def pyStrip (l : List Char) : List Char :=
  ((l.dropWhile isPySpace).reverse.dropWhile isPySpace).reverse

/-- Window construction around a match, lines 126-154: half the context on
each side, boundaries moved outward to whitespace/punctuation, ellipsis
markers when the window does not reach an end of the text. -/
def build_window (text : List Char) (best_pos match_len context_length : Nat) :
    List Char :=
  let desired_start := best_pos - context_length / 2
  let desired_end := min text.length (best_pos + match_len + context_length / 2)
  let start := adjust_start text desired_start
  let e := adjust_end text desired_end
  let snippet := pyStrip ((text.drop start).take (e - start))
  (if 0 < start then '.' :: '.' :: '.' :: [] else []) ++ snippet ++
    (if e < text.length then '.' :: '.' :: '.' :: [] else [])

/-- Final matched-words normalization, line 157: drop empties, lower-case,
deduplicate (Python builds a set; the model keeps first occurrences). -/
def finalize_matched (mw : List (List Char)) : List String :=
  ((mw.filter (fun w => !(w.isEmpty))).map
    (fun w => String.mk (w.map pyLower))).dedup

/-- str.find(' ', start): position of the first space at or after start. -/
def pyFindSpace (text : List Char) (start : Nat) : Option Nat :=
  ((List.range text.length).drop start).find? (fun i => text.getD i '?' == ' ')

/-- No-match truncation, lines 34-40 and 161-167: when the text is longer
than the context, cut at the first space at or after context_length
(or exactly there when no space follows), strip, and append an ellipsis. -/
def truncate_text (text : List Char) (context_length : Nat) : List Char :=
  if context_length < text.length then
    let end_pos := (pyFindSpace text context_length).getD context_length
    pyStrip (text.take end_pos) ++ ('.' :: '.' :: '.' :: [])
  else text

/-- extract_snippet, lines 9-167: exact pass on the candidate surface
terms, fuzzy pass when no exact match, window construction around the
match, and truncation fallback.  Returns the snippet and the matched
words. -/
def extract_snippet (text : String) (terms : List String)
    (context_length : Nat) (original_query : Option String) :
    String × List String :=
  if text.data = [] ∨ terms = [] then
    (String.mk (truncate_text text.data context_length), [])
  else
    let text_lower := text.data.map pyLower
    let original_terms := snippet_terms original_query
    let ex := exact_pass text_lower original_terms
    match ex.2.1 with
    | some term =>
      (String.mk (build_window text.data ex.1 term.length context_length),
        finalize_matched ex.2.2)
    | none =>
      let fz := fuzzy_pass text_lower original_terms
      match fz.best_word with
      | some w =>
        (String.mk (build_window text.data fz.best_pos w.length context_length),
          finalize_matched (ex.2.2 ++ [w] ++ original_terms))
      | none => (String.mk (truncate_text text.data context_length), [])

/-- The cut at position i of a text does not split a word: the boundary is
the start of the text or one of its two adjacent characters is not a word
character (positions at or beyond the end read the default space). -/
def noSplitAt (text : List Char) (i : Nat) : Bool :=
  decide (i = 0) || !(isWordChar (text.getD (i - 1) ' ')) ||
    !(isWordChar (text.getD i ' '))

/-! ## Corpus data model (backend/app/services/corpus_manager.py)

The corpus is loaded once and read-only: documents are appended in load
order with identifiers doc_1, doc_2, ...; texts and term-frequency tables
are dicts keyed by document id, modelled as insertion-ordered association
lists whose key order is the load order. -/

abbrev Term := String

abbrev DocId := String

/-- The per-document metadata dict built in _process_pdfs (the fields the
search services read). -/
structure DocInfo where
  id : DocId
  title : String
  filename : Option String
deriving DecidableEq

/-- The corpus container: documents in load order, full texts and processed
term-frequency tables keyed by document id. -/
structure CorpusManager where
  documents : List DocInfo
  texts : List (DocId × String)
  processed_terms : List (DocId × List (Term × Nat))

/-- Well-formedness established by corpus loading: the term-table dict has
exactly the loaded document ids as keys, in load order, and ids are unique
(doc_1, doc_2, ... are assigned from a counter and never reused). -/
def CorpusWF (cm : CorpusManager) : Prop :=
  cm.documents.map DocInfo.id = cm.processed_terms.map Prod.fst ∧
    (cm.documents.map DocInfo.id).Nodup

instance (cm : CorpusManager) : Decidable (CorpusWF cm) := by
  unfold CorpusWF
  infer_instance

/-- CorpusManager.get_document, lines 131-136. -/
def get_document (cm : CorpusManager) (doc_id : DocId) : Option DocInfo :=
  cm.documents.find? (fun d => d.id == doc_id)

/-- CorpusManager.get_document_text, lines 138-140. -/
def get_document_text (cm : CorpusManager) (doc_id : DocId) : Option String :=
  cm.texts.lookup doc_id

/-- A search result item (app/models/schemas.py, ResultItem). -/
structure ResultItem where
  id : DocId
  title : String
  score : ℝ
  snippet : String
  matchedWords : List String
  filename : Option String

/-! ## TF-IDF service (backend/app/services/tfidf_service.py)

The index build (_build_index) is deterministic in the immutable corpus,
so the is-indexed flag is pure memoization and the derived statistics are
modelled as functions of the corpus. -/

/-- Number of documents N, line 39. -/
def numDocs (cm : CorpusManager) : Nat := cm.processed_terms.length

/-- Document frequency, lines 48-51: the number of documents whose
term-frequency table contains the term. -/
def df (cm : CorpusManager) (t : Term) : Nat :=
  cm.processed_terms.countP (fun p => (p.2.lookup t).isSome)

/-- Membership of a term in the built vocabulary (the keys of the idf
dict): terms occurring in at least one document. -/
def vocabContains (cm : CorpusManager) (t : Term) : Bool := 0 < df cm t

/-- Inverse document frequency, lines 55-65: idf(t) = log10(1 + N/df(t)). -/
noncomputable def idf (cm : CorpusManager) (t : Term) : ℝ :=
  Real.logb 10 (1 + (numDocs cm : ℝ) / (df cm t : ℝ))

/-- self.idf.get(t, 0): zero for out-of-vocabulary terms. -/
noncomputable def idfLookup (cm : CorpusManager) (t : Term) : ℝ :=
  if vocabContains cm t then idf cm t else 0

/-- Logarithmic term-frequency dampening, lines 78-79 and 144-149:
1 + log10(freq) for freq > 0, else 0. -/
noncomputable def tfWeight (freq : Nat) : ℝ :=
  if 0 < freq then 1 + Real.logb 10 (freq : ℝ) else 0

/-- The TF-IDF weight of a term in a document, lines 73-80 together with
the vector lookup of line 195-197: tf * idf when the term is in the
document table, zero otherwise. -/
noncomputable def tf_idf_weight (cm : CorpusManager) (tab : List (Term × Nat))
    (t : Term) : ℝ :=
  match tab.lookup t with
  | some freq => tfWeight freq * idf cm t
  | none => 0

/-- The query vector, lines 136-166: one coordinate per element of the
surviving query-term list (duplicates kept), weighted by the logarithmic
term frequency of the term in the query times its idf. -/
noncomputable def tfidf_query_vector (cm : CorpusManager) (query_terms : List Term) :
    List ℝ :=
  query_terms.map (fun termo => tfWeight (query_terms.count termo) * idfLookup cm termo)

/-- np.dot on equal-length real vectors. -/
noncomputable def dotList (xs ys : List ℝ) : ℝ :=
  ((xs.zip ys).map (fun p => p.1 * p.2)).sum

/-- np.linalg.norm: the Euclidean norm. -/
noncomputable def normList (xs : List ℝ) : ℝ :=
  Real.sqrt ((xs.map (fun x => x ^ 2)).sum)

/-- The surviving query terms, line 111: processed query terms that are in
the vocabulary, in order, with multiplicity. -/
def surviving_terms (cm : CorpusManager) (pre : PreprocessingService)
    (query : String) : List Term :=
  (process_query pre query).filter (fun t => vocabContains cm t)

/-- The similarity of one document, lines 210-228: the raw first
coordinate of the restricted document vector for a single-term query, the
cosine of the normalized restricted vectors otherwise.  A document with a
zero-norm restricted vector is skipped by the code; the model gives it
similarity zero, which the positivity filter removes identically. -/
noncomputable def doc_similarity (cm : CorpusManager) (query_terms : List Term)
    (tab : List (Term × Nat)) : ℝ :=
  let doc_vector := query_terms.map (fun t => tf_idf_weight cm tab t)
  if query_terms.length = 1 then doc_vector.headD 0
  else
    let doc_norm := normList doc_vector
    if 0 < doc_norm then
      dotList (doc_vector.map (fun x => x / doc_norm))
        ((tfidf_query_vector cm query_terms).map
          (fun x => x / normList (tfidf_query_vector cm query_terms)))
    else 0

/-- The similarity list, lines 187-235: one entry per document of the
index (in load order) whose restricted vector is not all zero and whose
similarity is positive. -/
noncomputable def tfidf_similarities (cm : CorpusManager) (query_terms : List Term) :
    List (DocId × ℝ) :=
  cm.processed_terms.filterMap (fun p =>
    if 0 < (query_terms.map (fun t => tf_idf_weight cm p.2 t)).sum then
      let similarity := doc_similarity cm query_terms p.2
      if 0 < similarity then some (p.1, similarity) else none
    else none)

/-- Descending-by-score order used to sort the similarity lists:
sorted(..., key=lambda x: x[1], reverse=True).  Python sorting is stable;
insertion sort with this non-strict relation is the stable descending
sort. -/
def scoreGe (x y : DocId × ℝ) : Prop := y.2 ≤ x.2

noncomputable instance : DecidableRel scoreGe := fun x y =>
  Real.decidableLE y.2 x.2

instance : IsTotal (DocId × ℝ) scoreGe := ⟨fun a b => le_total b.2 a.2⟩

instance : IsTrans (DocId × ℝ) scoreGe := ⟨fun _ _ _ h1 h2 => le_trans h2 h1⟩

/-- The result-assembly loop shared by both services (tfidf_service lines
250-278, bm25_service lines 100-128): walk the ranked, truncated document
list, skip ids already seen or unknown to the corpus, and build a
ResultItem with a snippet extracted from the document text. -/
noncomputable def results_loop (cm : CorpusManager) (query_terms : List Term)
    (query : String) : List (DocId × ℝ) → List DocId → List ResultItem
  | [], _ => []
  | (doc_id, score) :: rest, seen =>
    if doc_id ∈ seen then results_loop cm query_terms query rest seen
    else
      match get_document cm doc_id with
      | none => results_loop cm query_terms query rest (doc_id :: seen)
      | some doc_info =>
        let text := (get_document_text cm doc_id).getD ""
        let sm := extract_snippet text query_terms 250 (some query)
        { id := doc_id, title := doc_info.title, score := score,
          snippet := sm.1, matchedWords := sm.2, filename := doc_info.filename } ::
          results_loop cm query_terms query rest (doc_id :: seen)

/-- The ranking tail shared by both services (tfidf_service lines 247-278,
bm25_service lines 92-128): stable descending sort by score, truncation to
top_k, result assembly. -/
noncomputable def rank_results (cm : CorpusManager) (query_terms : List Term)
    (query : String) (candidates : List (DocId × ℝ)) (top_k : Nat) :
    List ResultItem :=
  results_loop cm query_terms query
    ((List.insertionSort scoreGe candidates).take top_k) []

/-- TFIDFService.search, lines 85-280.  The tf_weight parameter is accepted
but never read (only the log scheme is implemented). -/
noncomputable def tfidf_search (cm : CorpusManager) (pre : PreprocessingService)
    (query : String) (tf_weight : String) (top_k : Nat) : List ResultItem :=
  let query_terms0 := process_query pre query
  if query_terms0 = [] then []
  else
    let termos_encontrados := query_terms0.filter (fun t => vocabContains cm t)
    if termos_encontrados = [] then []
    else
      let query_vector := tfidf_query_vector cm termos_encontrados
      if query_vector.sum = 0 then []
      else
        let query_norm := normList query_vector
        if 0 < query_norm then
          rank_results cm termos_encontrados query
            (tfidf_similarities cm termos_encontrados) top_k
        else []

/-! ## BM25 service (backend/app/services/bm25_service.py) -/

/-- The cached BM25 index: the parameters it was built with and the
token-multiset corpus (one token list per document, in sorted-id order). -/
structure BM25Index where
  k1 : ℝ
  b : ℝ
  corpus : List (List Term)

/-- Python string comparison (less or equal): lexicographic by code
points.  This agrees with the String order of the library but is stated on
the character lists so that it evaluates. -/
def pyStrLeb : List Char → List Char → Bool
  | [], _ => true
  | _ :: _, [] => false
  | c :: a, d :: b => if c < d then true else if d < c then false else pyStrLeb a b

lemma pyStrLeb_iff : ∀ a b : List Char, pyStrLeb a b = true ↔ a ≤ b
  | [], b => by
    simp only [pyStrLeb, true_iff]
    rw [le_iff_lt_or_eq]
    cases b with
    | nil => exact Or.inr rfl
    | cons d b => exact Or.inl List.Lex.nil
  | c :: a, [] => by
    simp only [pyStrLeb, Bool.false_eq_true, false_iff]
    rw [le_iff_lt_or_eq]
    rintro (h | h)
    · cases h
    · cases h
  | c :: a, d :: b => by
    rw [le_iff_lt_or_eq]
    by_cases h1 : c < d
    · simp only [pyStrLeb, if_pos h1, true_iff]
      exact Or.inl (List.Lex.rel h1)
    · by_cases h2 : d < c
      · simp only [pyStrLeb, if_neg h1, if_pos h2, Bool.false_eq_true, false_iff]
        rintro (h | h)
        · cases h with
          | cons h' => exact absurd h2 (lt_irrefl c)
          | rel h' => exact absurd h' h1
        · injection h with h' _
          subst h'
          exact absurd h2 (lt_irrefl c)
      · have hcd : c = d := le_antisymm (not_lt.mp h2) (not_lt.mp h1)
        subst hcd
        simp only [pyStrLeb, if_neg h1, if_neg h2]
        rw [pyStrLeb_iff a b, le_iff_lt_or_eq]
        constructor
        · rintro (h | h)
          · exact Or.inl (List.Lex.cons h)
          · exact Or.inr (by rw [h])
        · rintro (h | h)
          · cases h with
            | cons h' => exact Or.inl h'
            | rel h' => exact absurd h' (lt_irrefl c)
          · injection h with _ h'
            exact Or.inr h'

lemma pyStrLeb_str_iff (a b : String) : pyStrLeb a.data b.data = true ↔ a ≤ b := by
  rw [String.le_iff_toList_le]
  exact pyStrLeb_iff a.data b.data

instance : IsTotal DocId (fun a b : DocId => pyStrLeb a.data b.data = true) :=
  ⟨fun a b => (le_total a b).imp (pyStrLeb_str_iff a b).mpr (pyStrLeb_str_iff b a).mpr⟩

instance : IsTrans DocId (fun a b : DocId => pyStrLeb a.data b.data = true) :=
  ⟨fun a b c hab hbc => (pyStrLeb_str_iff a c).mpr
    (le_trans ((pyStrLeb_str_iff a b).mp hab) ((pyStrLeb_str_iff b c).mp hbc))⟩

/-- The document ids in the order _prepare_corpus iterates them, line 34:
sorted(processed_terms.keys()), i.e. lexicographically by code points. -/
def sorted_doc_ids (cm : CorpusManager) : List DocId :=
  List.insertionSort (fun a b : DocId => pyStrLeb a.data b.data = true)
    (cm.processed_terms.map Prod.fst)

/-- Token multiset of one document, lines 38-40: each term repeated by its
frequency. -/
def docTokens (tab : List (Term × Nat)) : List Term :=
  tab.flatMap (fun p => List.replicate p.2 p.1)

/-- BM25Service._prepare_corpus, lines 29-45. -/
def prepare_corpus (cm : CorpusManager) : List (List Term) :=
  (sorted_doc_ids cm).map (fun doc_id =>
    docTokens ((cm.processed_terms.lookup doc_id).getD []))

/-- Modelled from the spec: the scoring of the external rank_bm25.BM25Okapi
library, which is not part of this repository.  Spec §4.3 requires scores
numerically identical to the standard Okapi BM25 definition
score(d,q) = Σ over t in q of idf(t)·f(t,d)·(k1+1)/(f(t,d)+k1·(1-b+b·len(d)/avgdl)),
summing one contribution per query-term occurrence; the Okapi inverse
document frequency is ln((N-df(t)+0.5)/(df(t)+0.5)).  The library's
epsilon floor replacing negative idf values is not modelled (no verified
claim depends on the value of the idf). -/
noncomputable def okapiIdf (corpus : List (List Term)) (t : Term) : ℝ :=
  let n := (corpus.countP (fun d => d.contains t) : ℝ)
  Real.log (((corpus.length : ℝ) - n + 0.5) / (n + 0.5))

/-- BM25Okapi.get_scores on the modelled index: one score per corpus
document, in corpus order. -/
noncomputable def bm25_get_scores (idx : BM25Index) (query : List Term) : List ℝ :=
  let avgdl : ℝ := ((idx.corpus.map List.length).sum : ℝ) / (idx.corpus.length : ℝ)
  idx.corpus.map (fun doc =>
    (query.map (fun q =>
      okapiIdf idx.corpus q * ((doc.count q : ℝ) * (idx.k1 + 1)) /
        ((doc.count q : ℝ) +
          idx.k1 * (1 - idx.b + idx.b * (doc.length : ℝ) / avgdl)))).sum)

/-- Mutable state of BM25Service: the cached index, the id order of its
rows, and the built flag. -/
structure BM25Service where
  bm25_index : Option BM25Index
  doc_ids : List DocId
  is_indexed : Bool

/-- BM25Service._build_index, lines 47-58: on the first call prepare the
corpus (which also sets doc_ids) and build the index with the default
parameters k1 = 1.2, b = 0.75; an empty corpus leaves the service
unindexed. -/
def bm25_build_index (cm : CorpusManager) (svc : BM25Service) : BM25Service :=
  if svc.is_indexed then svc
  else
    let corpus := prepare_corpus cm
    if corpus = [] then { svc with doc_ids := sorted_doc_ids cm }
    else
      { bm25_index := some ⟨1.2, 0.75, corpus⟩, doc_ids := sorted_doc_ids cm,
        is_indexed := true }

/-- BM25Service.search, lines 60-130: build lazily, return empty on a
missing index or an empty processed query, rebuild the index when the
requested (k1, b) differ from the cached ones, score, keep positive
scores, sort descending (stably), truncate to top_k and assemble results.
Returns the results together with the updated service state. -/
noncomputable def bm25_search (cm : CorpusManager) (pre : PreprocessingService)
    (svc : BM25Service) (query : String) (k1 b : ℝ) (top_k : Nat) :
    List ResultItem × BM25Service :=
  let svc := bm25_build_index cm svc
  match svc.bm25_index with
  | none => ([], svc)
  | some idx0 =>
    let query_terms := process_query pre query
    if query_terms = [] then ([], svc)
    else
      let p :=
        if k1 ≠ idx0.k1 ∨ b ≠ idx0.b then
          let idx1 : BM25Index := ⟨k1, b, prepare_corpus cm⟩
          (idx1, { svc with bm25_index := some idx1, doc_ids := sorted_doc_ids cm })
        else (idx0, svc)
      let scores := bm25_get_scores p.1 query_terms
      let doc_scores := ((p.2.doc_ids.zip scores).filter (fun q => 0 < q.2))
      (rank_results cm query_terms query doc_scores top_k, p.2)

/-! ## Search orchestrator (backend/app/services/search_service.py) -/

/-- Timing metrics (app/models/schemas.py, Metrics), in milliseconds. -/
structure Metrics where
  preprocessTime : ℝ
  tfidfTime : ℝ
  bm25Time : ℝ

/-- The dict returned by SearchService.search. -/
structure SearchResultBundle where
  tfidf : List ResultItem
  bm25 : List ResultItem
  metrics : Metrics

/-- SearchService.search, lines 29-93.  The two scorers held by the
service are passed as function arguments (the fields tfidf_service and
bm25_service of the class); wall-clock stage durations are external
nonnegative inputs.  An empty processed query short-circuits with empty
results and zero scorer times; otherwise a missing top_k is replaced by
the total number of documents and both scorers are invoked. -/
noncomputable def search_service_search (cm : CorpusManager)
    (pre : PreprocessingService)
    (tfidfFn : String → String → Nat → List ResultItem)
    (bm25Fn : String → ℝ → ℝ → Nat → List ResultItem)
    (preprocess_time tfidf_time bm25_time : ℝ)
    (query : String) (k1 b : ℝ) (tf_weight : String) (top_k : Option Nat) :
    SearchResultBundle :=
  let query_terms := process_query pre query
  if query_terms = [] then ⟨[], [], ⟨preprocess_time, 0, 0⟩⟩
  else
    let top_k := top_k.getD cm.documents.length
    ⟨tfidfFn query tf_weight top_k, bm25Fn query k1 b top_k,
      ⟨preprocess_time, tfidf_time, bm25_time⟩⟩

/-! ## Concrete corpora used by witnesses and counterexamples -/

/-- A one-document corpus. -/
def cm1 : CorpusManager :=
  ⟨[⟨"doc_1", "Doc 1", none⟩], [], [("doc_1", [("gato", 1)])]⟩

/-- A two-document corpus where "gato" occurs 10 times in doc_1 and once
in doc_2. -/
def cm2 : CorpusManager :=
  ⟨[⟨"doc_1", "Doc 1", none⟩, ⟨"doc_2", "Doc 2", none⟩], [],
   [("doc_1", [("gato", 10), ("cachorro", 2)]),
    ("doc_2", [("gato", 1), ("peixe", 3)])]⟩

/-- The identity preprocessing service: no stemmer, no corrections, no
stopwords. -/
def pre0 : PreprocessingService := ⟨none, [], []⟩

/-! ## C5: empty normalized query short-circuits the orchestrator -/

/-- C5: when normalization yields no terms, SearchService.search returns
both result lists empty, zero TF-IDF and BM25 times and a nonnegative
preprocessing time — and this holds for every pair of scorer functions,
i.e. neither scorer is invoked. -/
theorem C5_empty_query_short_circuit (cm : CorpusManager)
    (pre : PreprocessingService)
    (tfidfFn : String → String → Nat → List ResultItem)
    (bm25Fn : String → ℝ → ℝ → Nat → List ResultItem)
    (pt tt bt : ℝ) (query : String) (k1 b : ℝ) (tfw : String) (tk : Option Nat)
    (hq : process_query pre query = []) (hpt : 0 ≤ pt) :
    (search_service_search cm pre tfidfFn bm25Fn pt tt bt query k1 b tfw tk).tfidf = [] ∧
    (search_service_search cm pre tfidfFn bm25Fn pt tt bt query k1 b tfw tk).bm25 = [] ∧
    (search_service_search cm pre tfidfFn bm25Fn pt tt bt query k1 b tfw tk).metrics.tfidfTime = 0 ∧
    (search_service_search cm pre tfidfFn bm25Fn pt tt bt query k1 b tfw tk).metrics.bm25Time = 0 ∧
    0 ≤ (search_service_search cm pre tfidfFn bm25Fn pt tt bt query k1 b tfw tk).metrics.preprocessTime := by
  simp only [search_service_search, hq, if_pos]
  exact ⟨trivial, trivial, trivial, trivial, hpt⟩

/-- C5 witness: the empty query on a concrete corpus and scorers. -/
theorem C5_witness :
    (search_service_search cm1 pre0 (fun _ _ _ => []) (fun _ _ _ _ => [])
      0 1 1 "" 1.2 0.75 "log" none).tfidf = [] ∧
    (search_service_search cm1 pre0 (fun _ _ _ => []) (fun _ _ _ _ => [])
      0 1 1 "" 1.2 0.75 "log" none).bm25 = [] ∧
    (search_service_search cm1 pre0 (fun _ _ _ => []) (fun _ _ _ _ => [])
      0 1 1 "" 1.2 0.75 "log" none).metrics.tfidfTime = 0 ∧
    (search_service_search cm1 pre0 (fun _ _ _ => []) (fun _ _ _ _ => [])
      0 1 1 "" 1.2 0.75 "log" none).metrics.bm25Time = 0 ∧
    0 ≤ (search_service_search cm1 pre0 (fun _ _ _ => []) (fun _ _ _ _ => [])
      0 1 1 "" 1.2 0.75 "log" none).metrics.preprocessTime :=
  C5_empty_query_short_circuit cm1 pre0 _ _ 0 1 1 "" 1.2 0.75 "log" none
    (by decide) (le_refl 0)

/-! ## C3: idf formula and positivity -/

lemma idf_pos (cm : CorpusManager) (t : Term) (hN : 1 ≤ numDocs cm)
    (hdf : 1 ≤ df cm t) : 0 < idf cm t := by
  unfold idf
  apply Real.logb_pos (by norm_num)
  have h1 : (0 : ℝ) < (numDocs cm : ℝ) / (df cm t : ℝ) := by
    apply div_pos
    · exact_mod_cast hN
    · exact_mod_cast hdf
  linarith

/-- C3: on a corpus of N at least 1 documents the built inverse document
frequency idf(t) = log10(1 + N/df(t)) is strictly positive for every term
with df(t) at least 1, and df(t) at most N always holds (df counts the
documents whose table contains t). -/
theorem C3_idf_positive (cm : CorpusManager) (t : Term)
    (hN : 1 ≤ numDocs cm) (hdf : 1 ≤ df cm t) :
    0 < idf cm t ∧ df cm t ≤ numDocs cm :=
  ⟨idf_pos cm t hN hdf, List.countP_le_length _⟩

/-- C3 witness: the edge case df = N on a concrete corpus. -/
theorem C3_witness : 0 < idf cm1 "gato" ∧ df cm1 "gato" ≤ numDocs cm1 :=
  C3_idf_positive cm1 "gato" (by decide) (by decide)

/-! ## C2: the query vector keeps duplicate occurrences -/

/-- C2 counterexample: the query "gato gato" survives as two occurrences
of the same vocabulary term, and the assembled query vector has two
coordinates — not one per distinct surviving term as claimed. -/
theorem C2_counterexample :
    ¬ ((tfidf_query_vector cm2 (surviving_terms cm2 pre0 "gato gato")).length =
        (surviving_terms cm2 pre0 "gato gato").dedup.length) := by
  rw [tfidf_query_vector, List.length_map]
  decide

/-- C2 (amended): the query vector has one coordinate per occurrence of
each surviving term, in query order; the coordinate of the i-th
occurrence is (1 + log10 of the term's occurrence count in the query)
times idf of the term, so duplicate occurrences of a term carry equal
coordinates; and every surviving term is in the vocabulary. -/
theorem C2_query_vector (cm : CorpusManager) (pre : PreprocessingService)
    (query : String) :
    (tfidf_query_vector cm (surviving_terms cm pre query)).length =
      (surviving_terms cm pre query).length ∧
    (∀ i, i < (surviving_terms cm pre query).length →
      (tfidf_query_vector cm (surviving_terms cm pre query)).getD i 0 =
        tfWeight ((surviving_terms cm pre query).count
            ((surviving_terms cm pre query).getD i "")) *
          idfLookup cm ((surviving_terms cm pre query).getD i "")) ∧
    (∀ i j, i < (surviving_terms cm pre query).length →
      j < (surviving_terms cm pre query).length →
      (surviving_terms cm pre query).getD i "" =
        (surviving_terms cm pre query).getD j "" →
      (tfidf_query_vector cm (surviving_terms cm pre query)).getD i 0 =
        (tfidf_query_vector cm (surviving_terms cm pre query)).getD j 0) ∧
    (∀ t ∈ surviving_terms cm pre query, vocabContains cm t = true) := by
  have hget : ∀ i, i < (surviving_terms cm pre query).length →
      (tfidf_query_vector cm (surviving_terms cm pre query)).getD i 0 =
        tfWeight ((surviving_terms cm pre query).count
            ((surviving_terms cm pre query).getD i "")) *
          idfLookup cm ((surviving_terms cm pre query).getD i "") := by
    intro i hi
    unfold tfidf_query_vector
    rw [List.getD_eq_getElem?_getD, List.getElem?_map, List.getElem?_eq_getElem hi]
    rw [List.getD_eq_getElem?_getD, List.getElem?_eq_getElem hi]
    rfl
  refine ⟨by rw [tfidf_query_vector, List.length_map], hget, ?_, ?_⟩
  · intro i j hi hj hij
    rw [hget i hi, hget j hj, hij]
  · intro t ht
    exact (List.mem_filter.mp ht).2

/-! ## Cauchy-Schwarz machinery for list vectors -/

lemma sum_map_getD (f : ℝ → ℝ) (hf : f 0 = 0) :
    ∀ l : List ℝ, (l.map f).sum = ∑ i ∈ Finset.range l.length, f (l.getD i 0)
  | [] => by simp
  | x :: l => by
    rw [List.map_cons, List.sum_cons, sum_map_getD f hf l, List.length_cons,
      Finset.sum_range_succ']
    simp only [List.getD_cons_succ, List.getD_cons_zero]
    rw [add_comm]

lemma dotList_eq_sum : ∀ (d q : List ℝ), d.length = q.length →
    dotList d q = ∑ i ∈ Finset.range d.length, d.getD i 0 * q.getD i 0
  | [], [], _ => by simp [dotList]
  | [], _ :: _, h => by simp at h
  | _ :: _, [], h => by simp at h
  | x :: d, y :: q, h => by
    have h' : d.length = q.length := by simpa using h
    simp only [dotList, List.zip_cons_cons, List.map_cons, List.sum_cons]
    rw [show ((d.zip q).map fun p => p.1 * p.2).sum = dotList d q from rfl,
      dotList_eq_sum d q h', List.length_cons, Finset.sum_range_succ']
    simp only [List.getD_cons_succ, List.getD_cons_zero]
    rw [add_comm]

lemma dotList_le_norm_mul_norm (d q : List ℝ) (h : d.length = q.length) :
    dotList d q ≤ normList d * normList q := by
  rw [dotList_eq_sum d q h]
  unfold normList
  rw [sum_map_getD (fun x => x ^ 2) (by norm_num) d,
    sum_map_getD (fun x => x ^ 2) (by norm_num) q, ← h]
  exact Real.sum_mul_le_sqrt_mul_sqrt (Finset.range d.length)
    (fun i => d.getD i 0) (fun i => q.getD i 0)

lemma dotList_map_div (a b : ℝ) : ∀ (d q : List ℝ),
    dotList (d.map (fun x => x / a)) (q.map (fun x => x / b)) =
      dotList d q / (a * b)
  | [], q => by simp [dotList]
  | _ :: _, [] => by simp [dotList]
  | x :: d, y :: q => by
    simp only [List.map_cons, dotList, List.zip_cons_cons, List.sum_cons]
    rw [show ((((d.map fun x => x / a)).zip (q.map fun x => x / b)).map
        fun p => p.1 * p.2).sum = dotList (d.map (fun x => x / a)) (q.map (fun x => x / b))
        from rfl,
      dotList_map_div a b d q,
      show (((d.zip q)).map fun p => p.1 * p.2).sum = dotList d q from rfl]
    rw [div_mul_div_comm, add_div]

lemma cosine_le_one (d q : List ℝ) (h : d.length = q.length)
    (hd : 0 < normList d) (hq : 0 < normList q) :
    dotList (d.map (fun x => x / normList d)) (q.map (fun x => x / normList q)) ≤ 1 := by
  rw [dotList_map_div, div_le_one (mul_pos hd hq)]
  exact dotList_le_norm_mul_norm d q h

lemma normList_nonneg (l : List ℝ) : 0 ≤ normList l := Real.sqrt_nonneg _

lemma dotList_zero_right : ∀ (d q : List ℝ), dotList d (q.map (fun _ => (0 : ℝ))) = 0
  | [], _ => by simp [dotList]
  | _ :: _, [] => by simp [dotList]
  | x :: d, y :: q => by
    simp only [List.map_cons, dotList, List.zip_cons_cons, List.sum_cons]
    rw [show ((d.zip (q.map fun _ => (0 : ℝ))).map (fun p => p.1 * p.2)).sum =
        dotList d (q.map fun _ => (0 : ℝ)) from rfl, dotList_zero_right d q]
    ring

/-! ## C1: score ranges of TF-IDF search -/

lemma doc_similarity_le_one (cm : CorpusManager) (qs : List Term)
    (tab : List (Term × Nat)) (hne : qs.length ≠ 1) :
    doc_similarity cm qs tab ≤ 1 := by
  unfold doc_similarity
  rw [if_neg hne]
  dsimp only
  by_cases hdn : 0 < normList (qs.map fun t => tf_idf_weight cm tab t)
  · rw [if_pos hdn]
    by_cases hqn : 0 < normList (tfidf_query_vector cm qs)
    · exact cosine_le_one _ _ (by simp [tfidf_query_vector]) hdn hqn
    · have h0 : normList (tfidf_query_vector cm qs) = 0 :=
        le_antisymm (not_lt.mp hqn) (normList_nonneg _)
      rw [h0]
      rw [show (tfidf_query_vector cm qs).map (fun x => x / (0 : ℝ)) =
          (tfidf_query_vector cm qs).map (fun _ => (0 : ℝ)) from
        List.map_congr_left (fun x _ => div_zero x)]
      rw [dotList_zero_right]
      norm_num
  · rw [if_neg hdn]
    norm_num

lemma doc_similarity_single (cm : CorpusManager) (t : Term)
    (tab : List (Term × Nat)) :
    doc_similarity cm [t] tab = tf_idf_weight cm tab t := by
  simp [doc_similarity]

lemma tfidf_similarities_mem (cm : CorpusManager) (qs : List Term) (d : DocId)
    (s : ℝ) (hmem : (d, s) ∈ tfidf_similarities cm qs) :
    0 < s ∧ (qs.length ≠ 1 → s ≤ 1) ∧
      ∃ tab, (d, tab) ∈ cm.processed_terms ∧
        ∀ t, qs = [t] → s = tf_idf_weight cm tab t := by
  unfold tfidf_similarities at hmem
  rw [List.mem_filterMap] at hmem
  obtain ⟨p, hp, hf⟩ := hmem
  dsimp only at hf
  split at hf
  case isFalse => cases hf
  case isTrue hsum =>
    split at hf
    case isFalse => cases hf
    case isTrue hpos =>
      injection hf with hf
      injection hf with hfd hfs
      subst hfd
      subst hfs
      refine ⟨hpos, fun hne => doc_similarity_le_one cm qs p.2 hne, p.2,
        by simpa using hp, ?_⟩
      intro t hqs
      subst hqs
      exact doc_similarity_single cm t p.2

lemma results_loop_mem (cm : CorpusManager) (qt : List Term) (q : String) :
    ∀ (l : List (DocId × ℝ)) (seen : List DocId) (r : ResultItem),
      r ∈ results_loop cm qt q l seen → (r.id, r.score) ∈ l := by
  intro l
  induction l with
  | nil => intro seen r hr; simp [results_loop] at hr
  | cons x rest ih =>
    obtain ⟨x1, x2⟩ := x
    intro seen r hr
    unfold results_loop at hr
    by_cases hs : x1 ∈ seen
    · rw [if_pos hs] at hr
      exact List.mem_cons_of_mem _ (ih seen r hr)
    · rw [if_neg hs] at hr
      cases hfind : get_document cm x1 with
      | none =>
        rw [hfind] at hr
        exact List.mem_cons_of_mem _ (ih _ r hr)
      | some doc_info =>
        rw [hfind] at hr
        dsimp only at hr
        rcases List.mem_cons.mp hr with h' | h'
        · subst h'
          exact List.mem_cons_self _ _
        · exact List.mem_cons_of_mem _ (ih _ r h')

lemma tfidf_search_mem (cm : CorpusManager) (pre : PreprocessingService)
    (query tfw : String) (tk : Nat) (r : ResultItem)
    (h : r ∈ tfidf_search cm pre query tfw tk) :
    (r.id, r.score) ∈ tfidf_similarities cm (surviving_terms cm pre query) := by
  unfold tfidf_search at h
  dsimp only at h
  split at h
  case isTrue => cases h
  case isFalse =>
    split at h
    case isTrue => cases h
    case isFalse =>
      split at h
      case isTrue => cases h
      case isFalse =>
        split at h
        case isFalse => cases h
        case isTrue =>
          unfold rank_results at h
          have h2 := results_loop_mem cm _ query _ [] r h
          have h3 := List.take_subset tk _ h2
          exact (List.perm_insertionSort scoreGe _).subset h3

lemma tfWeight_strict_mono {c1 c2 : Nat} (h0 : 0 < c1) (h : c1 < c2) :
    tfWeight c1 < tfWeight c2 := by
  unfold tfWeight
  rw [if_pos h0, if_pos (h0.trans h)]
  have hlt := Real.logb_lt_logb (b := 10) (by norm_num)
    (show (0 : ℝ) < (c1 : ℝ) by exact_mod_cast h0)
    (show (c1 : ℝ) < (c2 : ℝ) by exact_mod_cast h)
  linarith

/-- C1: scores returned by TFIDFService.search.  For a query surviving as
more than one occurrence, every returned score is in (0, 1] (cosine of the
normalized restricted vectors, zero-vector documents excluded, only
positive scores retained).  For a query surviving as exactly one term,
every returned score is positive and equals the raw TF-IDF weight of that
term in the returned document; that weight is strictly increasing in the
term's count in the document. -/
theorem C1_tfidf_score_rules (cm : CorpusManager) (pre : PreprocessingService)
    (query tfw : String) (tk : Nat) :
    (1 < (surviving_terms cm pre query).length →
      ∀ r ∈ tfidf_search cm pre query tfw tk, 0 < r.score ∧ r.score ≤ 1) ∧
    (∀ t, surviving_terms cm pre query = [t] →
      ∀ r ∈ tfidf_search cm pre query tfw tk,
        0 < r.score ∧ ∃ tab, (r.id, tab) ∈ cm.processed_terms ∧
          r.score = tf_idf_weight cm tab t) ∧
    (∀ t c1 c2, 0 < c1 → c1 < c2 → 1 ≤ numDocs cm → 1 ≤ df cm t →
      tfWeight c1 * idf cm t < tfWeight c2 * idf cm t) := by
  refine ⟨?_, ?_, ?_⟩
  · intro hlen r hr
    obtain ⟨hpos, hle, _⟩ :=
      tfidf_similarities_mem cm _ r.id r.score (tfidf_search_mem cm pre query tfw tk r hr)
    exact ⟨hpos, hle (by omega)⟩
  · intro t hqs r hr
    obtain ⟨hpos, _, tab, htab, hsingle⟩ :=
      tfidf_similarities_mem cm _ r.id r.score (tfidf_search_mem cm pre query tfw tk r hr)
    exact ⟨hpos, tab, htab, hsingle t hqs⟩
  · intro t c1 c2 h0 hc hN hdf
    exact mul_lt_mul_of_pos_right (tfWeight_strict_mono h0 hc) (idf_pos cm t hN hdf)

/-- C1 witness: the duplicated multi-occurrence query, the single-term
query, and the count monotonicity, on the concrete two-document corpus. -/
theorem C1_witness :
    (∀ r ∈ tfidf_search cm2 pre0 "gato gato" "log" 5, 0 < r.score ∧ r.score ≤ 1) ∧
    (∀ r ∈ tfidf_search cm2 pre0 "gato" "log" 5,
      0 < r.score ∧ ∃ tab, (r.id, tab) ∈ cm2.processed_terms ∧
        r.score = tf_idf_weight cm2 tab "gato") ∧
    tfWeight 1 * idf cm2 "gato" < tfWeight 2 * idf cm2 "gato" :=
  ⟨(C1_tfidf_score_rules cm2 pre0 "gato gato" "log" 5).1 (by decide),
   fun r hr =>
     (C1_tfidf_score_rules cm2 pre0 "gato" "log" 5).2.1 "gato" (by decide) r hr,
   (C1_tfidf_score_rules cm2 pre0 "gato" "log" 5).2.2 "gato" 1 2
     (by decide) (by decide) (by decide) (by decide)⟩

/-! ## Ranking-contract machinery (C4, C10) -/

/-- Position of a document in load order. -/
def docIdx (cm : CorpusManager) (d : DocId) : Nat :=
  (cm.documents.map DocInfo.id).indexOf d

lemma results_loop_pairs_sublist (cm : CorpusManager) (qt : List Term) (q : String) :
    ∀ (l : List (DocId × ℝ)) (seen : List DocId),
      List.Sublist ((results_loop cm qt q l seen).map (fun r => (r.id, r.score))) l := by
  intro l
  induction l with
  | nil => intro seen; simp [results_loop]
  | cons x rest ih =>
    obtain ⟨x1, x2⟩ := x
    intro seen
    unfold results_loop
    by_cases hs : x1 ∈ seen
    · rw [if_pos hs]
      exact (ih seen).cons _
    · rw [if_neg hs]
      cases hfind : get_document cm x1 with
      | none => exact (ih _).cons _
      | some doc_info =>
        dsimp only
        exact (ih _).cons₂ _

lemma results_loop_ids_nodup (cm : CorpusManager) (qt : List Term) (q : String) :
    ∀ (l : List (DocId × ℝ)) (seen : List DocId),
      ((results_loop cm qt q l seen).map (fun r => r.id)).Nodup ∧
        ∀ d ∈ (results_loop cm qt q l seen).map (fun r => r.id), d ∉ seen := by
  intro l
  induction l with
  | nil => intro seen; simp [results_loop]
  | cons x rest ih =>
    obtain ⟨x1, x2⟩ := x
    intro seen
    unfold results_loop
    by_cases hs : x1 ∈ seen
    · rw [if_pos hs]
      exact ih seen
    · rw [if_neg hs]
      cases hfind : get_document cm x1 with
      | none =>
        obtain ⟨h1, h2⟩ := ih (x1 :: seen)
        exact ⟨h1, fun d hd hdseen => h2 d hd (List.mem_cons_of_mem _ hdseen)⟩
      | some doc_info =>
        obtain ⟨h1, h2⟩ := ih (x1 :: seen)
        dsimp only
        rw [List.map_cons, List.nodup_cons]
        refine ⟨⟨fun hmem => ?_, h1⟩, ?_⟩
        · exact h2 x1 hmem (List.mem_cons_self _ _)
        · intro d hd
          rcases List.mem_cons.mp hd with rfl | hd'
          · exact hs
          · exact fun hdseen => h2 d hd' (List.mem_cons_of_mem _ hdseen)

lemma results_loop_complete (cm : CorpusManager) (qt : List Term) (q : String) :
    ∀ (l : List (DocId × ℝ)) (seen : List DocId),
      (∀ x ∈ l, (get_document cm x.1).isSome = true ∧ x.1 ∉ seen) →
      (l.map Prod.fst).Nodup →
      (results_loop cm qt q l seen).map (fun r => (r.id, r.score)) = l := by
  intro l
  induction l with
  | nil => intro seen _ _; simp [results_loop]
  | cons x rest ih =>
    obtain ⟨x1, x2⟩ := x
    intro seen hx hnd
    obtain ⟨hsome, hseen⟩ := hx (x1, x2) (List.mem_cons_self _ _)
    unfold results_loop
    rw [if_neg hseen]
    obtain ⟨doc_info, hdoc⟩ := Option.isSome_iff_exists.mp hsome
    rw [hdoc]
    dsimp only
    rw [List.map_cons]
    have hx1 : x1 ∉ rest.map Prod.fst := by
      rw [List.map_cons, List.nodup_cons] at hnd
      exact hnd.1
    rw [ih (x1 :: seen) ?_ ?_]
    · intro y hy
      refine ⟨(hx y (List.mem_cons_of_mem _ hy)).1, ?_⟩
      intro hmem
      rcases List.mem_cons.mp hmem with rfl | h'
      · exact hx1 (List.mem_map_of_mem _ hy)
      · exact (hx y (List.mem_cons_of_mem _ hy)).2 h'
    · rw [List.map_cons, List.nodup_cons] at hnd
      exact hnd.2

lemma nodup_pairwise_indexOf {l : List DocId} (h : l.Nodup) :
    l.Pairwise (fun a b => l.indexOf a < l.indexOf b) := by
  induction l with
  | nil => exact List.Pairwise.nil
  | cons a l ih =>
    rw [List.nodup_cons] at h
    refine List.Pairwise.cons ?_ ?_
    · intro b hb
      have hne : b ≠ a := fun hba => h.1 (hba ▸ hb)
      rw [List.indexOf_cons_self, List.indexOf_cons_ne l hne.symm]
      omega
    · refine (ih h.2).imp_of_mem ?_
      intro x y hx hy hxy
      have hxa : x ≠ a := fun hxa => h.1 (hxa ▸ hx)
      have hya : y ≠ a := fun hya => h.1 (hya ▸ hy)
      rw [List.indexOf_cons_ne l hxa.symm, List.indexOf_cons_ne l hya.symm]
      omega

lemma pairwise_zip_left {R : DocId → DocId → Prop} :
    ∀ (l : List DocId) (m : List ℝ), l.Pairwise R →
      (l.zip m).Pairwise (fun x y => R x.1 y.1) := by
  intro l
  induction l with
  | nil => intro m _; simp
  | cons a l ih =>
    intro m h
    cases m with
    | nil => simp
    | cons s m =>
      rw [List.zip_cons_cons]
      refine List.Pairwise.cons ?_ (ih m (List.Pairwise.of_cons h))
      intro z hz
      exact List.rel_of_pairwise_cons h (List.of_mem_zip hz).1

lemma orderedInsert_pairwise_stable (P : DocId × ℝ → DocId × ℝ → Prop)
    (a : DocId × ℝ) :
    ∀ s : List (DocId × ℝ), s.Sorted scoreGe →
      s.Pairwise (fun x y => y.2 < x.2 ∨ (x.2 = y.2 ∧ P x y)) →
      (∀ y ∈ s, P a y) →
      (List.orderedInsert scoreGe a s).Pairwise
        (fun x y => y.2 < x.2 ∨ (x.2 = y.2 ∧ P x y)) := by
  intro s
  induction s with
  | nil => intro _ _ _; simp
  | cons y ys ih =>
    intro hs hR ha
    rw [List.orderedInsert]
    by_cases hcmp : scoreGe a y
    · rw [if_pos hcmp]
      refine List.Pairwise.cons ?_ hR
      intro z hz
      have hzy : z.2 ≤ a.2 := by
        rcases List.mem_cons.mp hz with rfl | hz'
        · exact hcmp
        · exact le_trans (List.rel_of_pairwise_cons hs hz') hcmp
      rcases lt_or_eq_of_le hzy with h' | h'
      · exact Or.inl h'
      · refine Or.inr ⟨h'.symm, ?_⟩
        exact ha z hz
    · rw [if_neg hcmp]
      have hy : a.2 < y.2 := not_le.mp hcmp
      refine List.Pairwise.cons ?_
        (ih (List.Pairwise.of_cons hs) (List.Pairwise.of_cons hR)
          (fun z hz => ha z (List.mem_cons_of_mem _ hz)))
      intro z hz
      rcases (List.mem_orderedInsert scoreGe).mp hz with rfl | hz'
      · exact Or.inl hy
      · exact List.rel_of_pairwise_cons hR hz'

lemma insertionSort_pairwise_stable (P : DocId × ℝ → DocId × ℝ → Prop)
    (l : List (DocId × ℝ)) (hl : l.Pairwise P) :
    (List.insertionSort scoreGe l).Pairwise
      (fun x y => y.2 < x.2 ∨ (x.2 = y.2 ∧ P x y)) := by
  induction l with
  | nil => simp
  | cons a l ih =>
    rw [show List.insertionSort scoreGe (a :: l) =
      List.orderedInsert scoreGe a (List.insertionSort scoreGe l) from rfl]
    refine orderedInsert_pairwise_stable P a _
      (List.sorted_insertionSort scoreGe l) (ih (List.Pairwise.of_cons hl)) ?_
    intro z hz
    exact List.rel_of_pairwise_cons hl ((List.perm_insertionSort scoreGe l).subset hz)

/-- The contract of the shared ranking tail: the result list is no longer
than top_k and than the candidate list, its document ids are unique, and
it is sorted descending by score where equal scores keep any order the
candidate list was pairwise-consistent with. -/
theorem rank_results_contract (cm : CorpusManager) (qt : List Term) (q : String)
    (cands : List (DocId × ℝ)) (tk : Nat) (P : DocId × ℝ → DocId × ℝ → Prop)
    (hP : cands.Pairwise P) :
    (rank_results cm qt q cands tk).length ≤ min tk cands.length ∧
    ((rank_results cm qt q cands tk).map (fun r => r.id)).Nodup ∧
    (rank_results cm qt q cands tk).Pairwise
      (fun r1 r2 => r2.score < r1.score ∨
        (r1.score = r2.score ∧ P (r1.id, r1.score) (r2.id, r2.score))) := by
  refine ⟨?_, (results_loop_ids_nodup cm qt q _ []).1, ?_⟩
  · have h1 := (results_loop_pairs_sublist cm qt q
      ((List.insertionSort scoreGe cands).take tk) []).length_le
    rw [List.length_map] at h1
    calc (rank_results cm qt q cands tk).length
        ≤ ((List.insertionSort scoreGe cands).take tk).length := h1
      _ = min tk (List.insertionSort scoreGe cands).length := List.length_take tk _
      _ = min tk cands.length := by
          rw [(List.perm_insertionSort scoreGe cands).length_eq]
  · have hsorted := insertionSort_pairwise_stable P cands hP
    have htake := hsorted.sublist (List.take_sublist tk _)
    have hres := htake.sublist (results_loop_pairs_sublist cm qt q _ [])
    exact (List.pairwise_map.mp hres)

lemma tfidf_search_eq (cm : CorpusManager) (pre : PreprocessingService)
    (query tfw : String) (tk : Nat) :
    tfidf_search cm pre query tfw tk = [] ∨
    tfidf_search cm pre query tfw tk =
      rank_results cm (surviving_terms cm pre query) query
        (tfidf_similarities cm (surviving_terms cm pre query)) tk := by
  unfold tfidf_search
  dsimp only
  split
  · exact Or.inl rfl
  split
  · exact Or.inl rfl
  split
  · exact Or.inl rfl
  split
  · exact Or.inr rfl
  · exact Or.inl rfl

lemma tfidf_similarities_pairwise (cm : CorpusManager) (hwf : CorpusWF cm)
    (qs : List Term) :
    (tfidf_similarities cm qs).Pairwise
      (fun x y => docIdx cm x.1 < docIdx cm y.1) := by
  have hnd : (cm.processed_terms.map Prod.fst).Nodup := by
    rw [← hwf.1]; exact hwf.2
  have hids : (cm.processed_terms.map Prod.fst).Pairwise
      (fun a b => docIdx cm a < docIdx cm b) := by
    have h := nodup_pairwise_indexOf hnd
    unfold docIdx
    rw [hwf.1]
    exact h
  have hproc : cm.processed_terms.Pairwise
      (fun p q => docIdx cm p.1 < docIdx cm q.1) :=
    (List.pairwise_map (f := Prod.fst)
      (R := fun a b : DocId => docIdx cm a < docIdx cm b)).mp hids
  unfold tfidf_similarities
  refine List.pairwise_filterMap.mpr (hproc.imp_of_mem ?_)
  intro p q hp hq hR x hx y hy
  have hx1 : x.1 = p.1 := by
    dsimp only at hx
    split at hx
    · split at hx
      · rw [Option.mem_def, Option.some_inj] at hx
        rw [← hx]
      · simp at hx
    · simp at hx
  have hy1 : y.1 = q.1 := by
    dsimp only at hy
    split at hy
    · split at hy
      · rw [Option.mem_def, Option.some_inj] at hy
        rw [← hy]
      · simp at hy
    · simp at hy
  rw [hx1, hy1]
  exact hR

lemma bm25_candidates_pairwise (cm : CorpusManager) (hwf : CorpusWF cm)
    (scores : List ℝ) :
    (((sorted_doc_ids cm).zip scores).filter (fun q => 0 < q.2)).Pairwise
      (fun x y : DocId × ℝ => x.1 < y.1) := by
  have hsorted : (sorted_doc_ids cm).Sorted
      (fun a b : DocId => pyStrLeb a.data b.data = true) :=
    List.sorted_insertionSort _ _
  have hle : (sorted_doc_ids cm).Pairwise (fun a b : DocId => a ≤ b) :=
    hsorted.imp (fun h => (pyStrLeb_str_iff _ _).mp h)
  have hnd : (sorted_doc_ids cm).Nodup := by
    refine ((List.perm_insertionSort _ _).nodup_iff).mpr ?_
    rw [← hwf.1]; exact hwf.2
  have hlt : (sorted_doc_ids cm).Pairwise (fun a b : DocId => a < b) := by
    refine (List.Pairwise.and hle hnd).imp ?_
    intro a b hab
    exact lt_of_le_of_ne hab.1 hab.2
  exact (pairwise_zip_left _ scores hlt).filter _

lemma bm25_search_cases (cm : CorpusManager) (pre : PreprocessingService)
    (svc : BM25Service) (query : String) (k1 b : ℝ) (tk : Nat)
    (hfresh1 : svc.bm25_index = none) (hfresh2 : svc.is_indexed = false) :
    ((bm25_search cm pre svc query k1 b tk).1 = []) ∨
    ∃ idx, (bm25_search cm pre svc query k1 b tk).2.bm25_index = some idx ∧
      (bm25_search cm pre svc query k1 b tk).1 =
        rank_results cm (process_query pre query) query
          (((sorted_doc_ids cm).zip
            (bm25_get_scores idx (process_query pre query))).filter
              (fun q => 0 < q.2)) tk := by
  unfold bm25_search bm25_build_index
  rw [hfresh2]
  rw [if_neg (by simp)]
  dsimp only
  by_cases hc : prepare_corpus cm = []
  · rw [if_pos hc]
    dsimp only
    rw [hfresh1]
    exact Or.inl rfl
  · rw [if_neg hc]
    dsimp only
    by_cases hq : process_query pre query = []
    · rw [if_pos hq]
      exact Or.inl rfl
    · rw [if_neg hq]
      by_cases hparam : k1 ≠ (1.2 : ℝ) ∨ b ≠ (0.75 : ℝ)
      · rw [if_pos hparam]
        dsimp only
        exact Or.inr ⟨_, rfl, rfl⟩
      · rw [if_neg hparam]
        dsimp only
        exact Or.inr ⟨_, rfl, rfl⟩

/-- C4 (amended): both scorers return at most min(top_k, number of
positive-score candidates) results, sorted descending by score with no
duplicate document ids.  Ties are broken by the original document load
order for TF-IDF, but by the LEXICOGRAPHIC order of the document ids for
BM25 (its corpus rows are built over sorted(processed_terms.keys())), which
differs from load order once ids like doc_10 and doc_2 coexist. -/
theorem C4_ranking_contract (cm : CorpusManager) (pre : PreprocessingService)
    (svc : BM25Service) (query tfw : String) (k1 b : ℝ) (tk : Nat)
    (hwf : CorpusWF cm) (hfresh1 : svc.bm25_index = none)
    (hfresh2 : svc.is_indexed = false) :
    ((tfidf_search cm pre query tfw tk).length ≤
      min tk (tfidf_similarities cm (surviving_terms cm pre query)).length) ∧
    ((tfidf_search cm pre query tfw tk).map (fun r => r.id)).Nodup ∧
    ((tfidf_search cm pre query tfw tk).Pairwise
      (fun r1 r2 => r2.score < r1.score ∨
        (r1.score = r2.score ∧ docIdx cm r1.id < docIdx cm r2.id))) ∧
    (((bm25_search cm pre svc query k1 b tk).1.map (fun r => r.id)).Nodup) ∧
    (((bm25_search cm pre svc query k1 b tk).1).Pairwise
      (fun r1 r2 => r2.score < r1.score ∨
        (r1.score = r2.score ∧ r1.id < r2.id))) ∧
    ((bm25_search cm pre svc query k1 b tk).1 = [] ∨
      ∃ idx, (bm25_search cm pre svc query k1 b tk).2.bm25_index = some idx ∧
        (bm25_search cm pre svc query k1 b tk).1.length ≤
          min tk (((sorted_doc_ids cm).zip
            (bm25_get_scores idx (process_query pre query))).filter
              (fun q => 0 < q.2)).length) := by
  have htf := tfidf_search_eq cm pre query tfw tk
  have hbm := bm25_search_cases cm pre svc query k1 b tk hfresh1 hfresh2
  refine ⟨?_, ?_, ?_, ?_, ?_, ?_⟩
  · rcases htf with h | h
    · rw [h]; simp
    · rw [h]
      exact (rank_results_contract cm _ query _ tk _
        (tfidf_similarities_pairwise cm hwf _)).1
  · rcases htf with h | h
    · rw [h]; simp
    · rw [h]
      exact (rank_results_contract cm _ query _ tk _
        (tfidf_similarities_pairwise cm hwf _)).2.1
  · rcases htf with h | h
    · rw [h]; simp
    · rw [h]
      exact (rank_results_contract cm _ query _ tk _
        (tfidf_similarities_pairwise cm hwf _)).2.2
  · rcases hbm with h | ⟨idx, _, h⟩
    · rw [h]; simp
    · rw [h]
      exact (rank_results_contract cm _ query _ tk _
        (bm25_candidates_pairwise cm hwf _)).2.1
  · rcases hbm with h | ⟨idx, _, h⟩
    · rw [h]; simp
    · rw [h]
      exact (rank_results_contract cm _ query _ tk _
        (bm25_candidates_pairwise cm hwf _)).2.2
  · rcases hbm with h | ⟨idx, hidx, h⟩
    · exact Or.inl h
    · refine Or.inr ⟨idx, hidx, ?_⟩
      rw [h]
      exact (rank_results_contract cm _ query _ tk _
        (bm25_candidates_pairwise cm hwf _)).1

/-- A ten-document corpus in load order doc_1, ..., doc_10; the query term
"gato" occurs once in doc_2 and once in doc_10, every other document holds
one filler token. -/
def cm10 : CorpusManager :=
  ⟨[⟨"doc_1", "D", none⟩, ⟨"doc_2", "D", none⟩, ⟨"doc_3", "D", none⟩,
    ⟨"doc_4", "D", none⟩, ⟨"doc_5", "D", none⟩, ⟨"doc_6", "D", none⟩,
    ⟨"doc_7", "D", none⟩, ⟨"doc_8", "D", none⟩, ⟨"doc_9", "D", none⟩,
    ⟨"doc_10", "D", none⟩], [],
   [("doc_1", [("filler", 1)]), ("doc_2", [("gato", 1)]),
    ("doc_3", [("filler", 1)]), ("doc_4", [("filler", 1)]),
    ("doc_5", [("filler", 1)]), ("doc_6", [("filler", 1)]),
    ("doc_7", [("filler", 1)]), ("doc_8", [("filler", 1)]),
    ("doc_9", [("filler", 1)]), ("doc_10", [("gato", 1)])]⟩

/-- A freshly constructed BM25 service. -/
def svc0 : BM25Service := ⟨none, [], false⟩

lemma cm10_corpus : prepare_corpus cm10 =
    [["filler"], ["gato"], ["gato"], ["filler"], ["filler"], ["filler"],
     ["filler"], ["filler"], ["filler"], ["filler"]] := by decide

lemma cm10_ids : sorted_doc_ids cm10 =
    ["doc_1", "doc_10", "doc_2", "doc_3", "doc_4", "doc_5", "doc_6", "doc_7",
     "doc_8", "doc_9"] := by decide

lemma cm10_idf_pos : 0 < okapiIdf (prepare_corpus cm10) "gato" := by
  rw [cm10_corpus]
  unfold okapiIdf
  rw [show ([["filler"], ["gato"], ["gato"], ["filler"], ["filler"], ["filler"],
      ["filler"], ["filler"], ["filler"], ["filler"]].countP
        (fun d => d.contains "gato")) = 2 from by decide]
  dsimp only
  apply Real.log_pos
  norm_num

lemma cm10_candidates :
    (((sorted_doc_ids cm10).zip
        (bm25_get_scores ⟨1, 0, prepare_corpus cm10⟩ ["gato"])).filter
      (fun q => 0 < q.2)) =
    [("doc_10", okapiIdf (prepare_corpus cm10) "gato"),
     ("doc_2", okapiIdf (prepare_corpus cm10) "gato")] := by
  have hA := cm10_idf_pos
  rw [cm10_ids]
  unfold bm25_get_scores
  dsimp only
  rw [cm10_corpus] at hA ⊢
  simp only [List.map_cons, List.map_nil, List.sum_cons, List.sum_nil]
  norm_num [List.count_cons, List.count_nil,
    eq_false (show ¬ ("filler" : String) = "gato" from by decide)]
  simp only [List.zip_cons_cons, List.zip_nil_right, List.filter_cons,
    List.filter_nil, decide_eq_true_eq, lt_self_iff_false, if_false, hA, if_true]

lemma results_loop_pair_eval (A : ℝ) :
    results_loop cm10 ["gato"] "gato"
      [("doc_10", A), ("doc_2", A)] [] =
      [⟨"doc_10", "D", A, "", [], none⟩, ⟨"doc_2", "D", A, "", [], none⟩] := rfl

lemma cm10_results :
    (bm25_search cm10 pre0 svc0 "gato" 1 0 20).1 =
      [⟨"doc_10", "D", okapiIdf (prepare_corpus cm10) "gato", "", [], none⟩,
       ⟨"doc_2", "D", okapiIdf (prepare_corpus cm10) "gato", "", [], none⟩] := by
  unfold bm25_search bm25_build_index
  rw [show svc0.is_indexed = false from rfl, if_neg (by simp)]
  dsimp only
  rw [if_neg (show ¬ prepare_corpus cm10 = [] from by decide)]
  dsimp only
  rw [show process_query pre0 "gato" = ["gato"] from by decide]
  rw [if_neg (show ¬ (["gato"] : List String) = [] from by simp)]
  rw [if_pos (show (1 : ℝ) ≠ 1.2 ∨ (0 : ℝ) ≠ 0.75 from Or.inl (by norm_num))]
  dsimp only
  rw [cm10_candidates]
  unfold rank_results
  rw [show List.insertionSort scoreGe
      [(("doc_10" : DocId), okapiIdf (prepare_corpus cm10) "gato"),
       (("doc_2" : DocId), okapiIdf (prepare_corpus cm10) "gato")] =
      [(("doc_10" : DocId), okapiIdf (prepare_corpus cm10) "gato"),
       (("doc_2" : DocId), okapiIdf (prepare_corpus cm10) "gato")] from by
    show List.orderedInsert scoreGe _ [_] = _
    unfold List.orderedInsert
    rw [if_pos (show scoreGe
      (("doc_10" : DocId), okapiIdf (prepare_corpus cm10) "gato")
      (("doc_2" : DocId), okapiIdf (prepare_corpus cm10) "gato") from le_refl _)]]
  rw [show List.take 20
      [(("doc_10" : DocId), okapiIdf (prepare_corpus cm10) "gato"),
       (("doc_2" : DocId), okapiIdf (prepare_corpus cm10) "gato")] =
      [(("doc_10" : DocId), okapiIdf (prepare_corpus cm10) "gato"),
       (("doc_2" : DocId), okapiIdf (prepare_corpus cm10) "gato")] from rfl]
  exact results_loop_pair_eval _

/-- C4 counterexample: on a ten-document corpus where doc_2 and doc_10
hold the query term with identical statistics (equal BM25 scores), the
BM25 scorer returns doc_10 BEFORE doc_2, because its rows follow the
lexicographic order of sorted(processed_terms.keys()); the claimed
tie-break by load order (doc_2 at load position 1, doc_10 at load
position 9) is violated. -/
theorem C4_counterexample :
    ¬ ((bm25_search cm10 pre0 svc0 "gato" 1 0 20).1.Pairwise
      (fun r1 r2 => r2.score < r1.score ∨
        (r1.score = r2.score ∧ docIdx cm10 r1.id < docIdx cm10 r2.id))) := by
  rw [cm10_results]
  intro hp
  have h := List.rel_of_pairwise_cons hp (List.mem_cons_self _ _)
  rcases h with h | ⟨_, hidx⟩
  · exact absurd h (lt_irrefl _)
  · rw [show docIdx cm10 "doc_10" = 9 from by decide,
        show docIdx cm10 "doc_2" = 1 from by decide] at hidx
    omega

/-- C4 witness: the amended contract on the concrete two-document corpus
with a fresh BM25 service. -/
theorem C4_witness :
    ((tfidf_search cm2 pre0 "gato" "log" 5).length ≤
      min 5 (tfidf_similarities cm2 (surviving_terms cm2 pre0 "gato")).length) ∧
    ((tfidf_search cm2 pre0 "gato" "log" 5).map (fun r => r.id)).Nodup ∧
    ((tfidf_search cm2 pre0 "gato" "log" 5).Pairwise
      (fun r1 r2 => r2.score < r1.score ∨
        (r1.score = r2.score ∧ docIdx cm2 r1.id < docIdx cm2 r2.id))) ∧
    (((bm25_search cm2 pre0 svc0 "gato" 1.2 0.75 5).1.map (fun r => r.id)).Nodup) ∧
    (((bm25_search cm2 pre0 svc0 "gato" 1.2 0.75 5).1).Pairwise
      (fun r1 r2 => r2.score < r1.score ∨
        (r1.score = r2.score ∧ r1.id < r2.id))) ∧
    ((bm25_search cm2 pre0 svc0 "gato" 1.2 0.75 5).1 = [] ∨
      ∃ idx, (bm25_search cm2 pre0 svc0 "gato" 1.2 0.75 5).2.bm25_index = some idx ∧
        (bm25_search cm2 pre0 svc0 "gato" 1.2 0.75 5).1.length ≤
          min 5 (((sorted_doc_ids cm2).zip
            (bm25_get_scores idx (process_query pre0 "gato"))).filter
              (fun q => 0 < q.2)).length) :=
  C4_ranking_contract cm2 pre0 svc0 "gato" "log" 1.2 0.75 5 (by decide) rfl rfl

/-! ## C7: BM25 parameter invalidation -/

/-- C7: with a nonempty processed query and a built index, the service
state after BM25Service.search holds an index whose parameters are exactly
the requested (k1, b); when the request matches the cached parameters the
cached index object is reused unchanged, and when it differs the index is
rebuilt from the term-frequency tables; the returned ranking is computed
from that post-state index. -/
theorem C7_bm25_param_invalidation (cm : CorpusManager)
    (pre : PreprocessingService) (svc : BM25Service) (query : String)
    (k1 b : ℝ) (tk : Nat) (idx0 : BM25Index)
    (hq : process_query pre query ≠ [])
    (hidx : (bm25_build_index cm svc).bm25_index = some idx0) :
    ∃ idx1, (bm25_search cm pre svc query k1 b tk).2.bm25_index = some idx1 ∧
      idx1.k1 = k1 ∧ idx1.b = b ∧
      ((k1 = idx0.k1 ∧ b = idx0.b) → idx1 = idx0) ∧
      ((k1 ≠ idx0.k1 ∨ b ≠ idx0.b) → idx1.corpus = prepare_corpus cm) ∧
      (bm25_search cm pre svc query k1 b tk).1 =
        rank_results cm (process_query pre query) query
          (((bm25_search cm pre svc query k1 b tk).2.doc_ids).zip
              (bm25_get_scores idx1 (process_query pre query)) |>.filter
            (fun q => 0 < q.2)) tk := by
  unfold bm25_search
  dsimp only
  rw [hidx]
  dsimp only
  rw [if_neg hq]
  by_cases hparam : k1 ≠ idx0.k1 ∨ b ≠ idx0.b
  · rw [if_pos hparam]
    dsimp only
    refine ⟨_, rfl, rfl, rfl, ?_, fun _ => rfl, rfl⟩
    intro hcontra
    rcases hparam with h | h
    · exact absurd hcontra.1 h
    · exact absurd hcontra.2 h
  · rw [if_neg hparam]
    dsimp only
    push_neg at hparam
    exact ⟨idx0, hidx, hparam.1.symm, hparam.2.symm, fun _ => rfl,
      fun hcontra => absurd hparam (by tauto), rfl⟩

/-- C7 witness: the reuse branch on a concrete one-document corpus with
the default parameters. -/
theorem C7_witness :
    ∃ idx1, (bm25_search cm1 pre0 svc0 "gato" 1.2 0.75 5).2.bm25_index = some idx1 ∧
      idx1.k1 = 1.2 ∧ idx1.b = 0.75 ∧
      (((1.2 : ℝ) = (BM25Index.mk 1.2 0.75 [["gato"]]).k1 ∧
          (0.75 : ℝ) = (BM25Index.mk 1.2 0.75 [["gato"]]).b) →
        idx1 = BM25Index.mk 1.2 0.75 [["gato"]]) ∧
      (((1.2 : ℝ) ≠ (BM25Index.mk 1.2 0.75 [["gato"]]).k1 ∨
          (0.75 : ℝ) ≠ (BM25Index.mk 1.2 0.75 [["gato"]]).b) →
        idx1.corpus = prepare_corpus cm1) ∧
      (bm25_search cm1 pre0 svc0 "gato" 1.2 0.75 5).1 =
        rank_results cm1 (process_query pre0 "gato") "gato"
          (((bm25_search cm1 pre0 svc0 "gato" 1.2 0.75 5).2.doc_ids).zip
              (bm25_get_scores idx1 (process_query pre0 "gato")) |>.filter
            (fun q => 0 < q.2)) 5 :=
  C7_bm25_param_invalidation cm1 pre0 svc0 "gato" 1.2 0.75 5
    (BM25Index.mk 1.2 0.75 [["gato"]]) (by decide) rfl

/-! ## C10: default top_k returns every positive-score document -/

lemma idfLookup_pos (cm : CorpusManager) (t : Term)
    (h : vocabContains cm t = true) : 0 < idfLookup cm t := by
  unfold vocabContains at h
  rw [decide_eq_true_eq] at h
  rw [idfLookup, if_pos (by unfold vocabContains; rw [decide_eq_true_eq]; exact h)]
  exact idf_pos cm t (le_trans h (List.countP_le_length _)) h

lemma query_vector_pos (cm : CorpusManager) (qs : List Term)
    (hq : ∀ t ∈ qs, vocabContains cm t = true) :
    ∀ x ∈ tfidf_query_vector cm qs, 0 < x := by
  intro x hx
  rw [tfidf_query_vector, List.mem_map] at hx
  obtain ⟨t, ht, rfl⟩ := hx
  apply mul_pos
  · have hc : 0 < qs.count t := List.count_pos_iff.mpr ht
    unfold tfWeight
    rw [if_pos hc]
    have hl : (0 : ℝ) ≤ Real.logb 10 (qs.count t) :=
      Real.logb_nonneg (by norm_num) (by exact_mod_cast hc)
    linarith
  · exact idfLookup_pos cm t (hq t ht)

lemma tfidf_search_run (cm : CorpusManager) (pre : PreprocessingService)
    (query tfw : String) (tk : Nat)
    (hsv : surviving_terms cm pre query ≠ []) :
    tfidf_search cm pre query tfw tk =
      rank_results cm (surviving_terms cm pre query) query
        (tfidf_similarities cm (surviving_terms cm pre query)) tk := by
  have hq0 : process_query pre query ≠ [] := by
    intro h
    apply hsv
    unfold surviving_terms
    rw [h]
    rfl
  have hvoc : ∀ t ∈ surviving_terms cm pre query, vocabContains cm t = true :=
    fun t ht => (List.mem_filter.mp ht).2
  have hne : tfidf_query_vector cm (surviving_terms cm pre query) ≠ [] := by
    unfold tfidf_query_vector
    intro h
    exact hsv (List.map_eq_nil_iff.mp h)
  have hpos := query_vector_pos cm (surviving_terms cm pre query) hvoc
  have hsum : 0 < (tfidf_query_vector cm (surviving_terms cm pre query)).sum :=
    List.sum_pos _ hpos hne
  have hnorm : 0 < normList (tfidf_query_vector cm (surviving_terms cm pre query)) := by
    unfold normList
    apply Real.sqrt_pos.mpr
    apply List.sum_pos
    · intro a ha
      rw [List.mem_map] at ha
      obtain ⟨x, hxm, rfl⟩ := ha
      exact pow_pos (hpos x hxm) 2
    · intro h
      exact hne (List.map_eq_nil_iff.mp h)
  have hsv' : List.filter (fun t => vocabContains cm t) (process_query pre query) ≠ [] :=
    hsv
  have hsum' : ¬ (tfidf_query_vector cm
      (List.filter (fun t => vocabContains cm t) (process_query pre query))).sum = 0 :=
    ne_of_gt hsum
  have hnorm' : 0 < normList (tfidf_query_vector cm
      (List.filter (fun t => vocabContains cm t) (process_query pre query))) :=
    hnorm
  unfold tfidf_search
  dsimp only
  rw [if_neg hq0, if_neg hsv', if_neg hsum', if_pos hnorm']
  rfl

lemma get_document_isSome (cm : CorpusManager) (d : DocId)
    (h : d ∈ cm.documents.map DocInfo.id) : (get_document cm d).isSome = true := by
  rw [get_document, List.find?_isSome]
  rw [List.mem_map] at h
  obtain ⟨doc, hdoc, rfl⟩ := h
  exact ⟨doc, hdoc, by simp⟩

lemma rank_results_complete (cm : CorpusManager) (qt : List Term) (q : String)
    (cands : List (DocId × ℝ)) (tk : Nat)
    (hids : ∀ x ∈ cands, x.1 ∈ cm.documents.map DocInfo.id)
    (hnd : (cands.map Prod.fst).Nodup) (htk : cands.length ≤ tk) :
    ((rank_results cm qt q cands tk).map (fun r => (r.id, r.score))).Perm cands := by
  unfold rank_results
  have hlen : (List.insertionSort scoreGe cands).length ≤ tk := by
    rw [(List.perm_insertionSort scoreGe cands).length_eq]
    exact htk
  rw [List.take_of_length_le hlen]
  rw [results_loop_complete cm qt q _ [] ?_ ?_]
  · exact List.perm_insertionSort scoreGe cands
  · intro x hx
    refine ⟨get_document_isSome cm x.1
      (hids x ((List.perm_insertionSort scoreGe cands).subset hx)), ?_⟩
    exact List.not_mem_nil x.1
  · refine (((List.perm_insertionSort scoreGe cands).map Prod.fst).nodup_iff).mpr hnd

lemma tfidf_similarities_fst (cm : CorpusManager) (qs : List Term) :
    ∀ x ∈ tfidf_similarities cm qs, x.1 ∈ cm.processed_terms.map Prod.fst := by
  intro x hx
  unfold tfidf_similarities at hx
  rw [List.mem_filterMap] at hx
  obtain ⟨p, hp, hf⟩ := hx
  dsimp only at hf
  split at hf
  · split at hf
    · injection hf with hf
      rw [← hf]
      exact List.mem_map_of_mem _ hp
    · cases hf
  · cases hf

/-- C10: when top_k is omitted the orchestrator substitutes the corpus
size, and with that top_k each scorer returns exactly the documents with
positive score (as id-score pairs, up to ranking order): nothing is
truncated. -/
theorem C10_default_topk (cm : CorpusManager) (pre : PreprocessingService)
    (svc : BM25Service) (query tfw : String) (k1 b pt tt bt : ℝ)
    (hwf : CorpusWF cm) (hfresh1 : svc.bm25_index = none)
    (hfresh2 : svc.is_indexed = false) :
    (∀ tfidfFn bm25Fn,
      search_service_search cm pre tfidfFn bm25Fn pt tt bt query k1 b tfw none =
        search_service_search cm pre tfidfFn bm25Fn pt tt bt query k1 b tfw
          (some cm.documents.length)) ∧
    (surviving_terms cm pre query ≠ [] →
      ((tfidf_search cm pre query tfw cm.documents.length).map
        (fun r => (r.id, r.score))).Perm
        (tfidf_similarities cm (surviving_terms cm pre query))) ∧
    (process_query pre query ≠ [] → prepare_corpus cm ≠ [] →
      ∃ idx, (bm25_search cm pre svc query k1 b
          cm.documents.length).2.bm25_index = some idx ∧
        ((bm25_search cm pre svc query k1 b cm.documents.length).1.map
          (fun r => (r.id, r.score))).Perm
          (((sorted_doc_ids cm).zip
            (bm25_get_scores idx (process_query pre query))).filter
              (fun q => 0 < q.2))) := by
  have hlenp : cm.processed_terms.length = cm.documents.length := by
    have := congrArg List.length hwf.1
    simpa using this.symm
  refine ⟨?_, ?_, ?_⟩
  · intro tfidfFn bm25Fn
    by_cases hq : process_query pre query = [] <;>
      simp [search_service_search, hq]
  · intro hsv
    rw [tfidf_search_run cm pre query tfw _ hsv]
    have hpw := tfidf_similarities_pairwise cm hwf (surviving_terms cm pre query)
    refine rank_results_complete cm _ query _ _ ?_ ?_ ?_
    · intro x hx
      rw [hwf.1]
      exact tfidf_similarities_fst cm _ x hx
    · refine List.pairwise_map.mpr (hpw.imp ?_)
      intro a b hab hfst
      rw [hfst] at hab
      exact lt_irrefl _ hab
    · calc (tfidf_similarities cm (surviving_terms cm pre query)).length
          ≤ cm.processed_terms.length := List.length_filterMap_le _ _
        _ = cm.documents.length := hlenp
  · intro hq hc
    unfold bm25_search bm25_build_index
    rw [hfresh2]
    rw [if_neg (by simp)]
    dsimp only
    rw [if_neg hc]
    dsimp only
    rw [if_neg hq]
    have hcand : ∀ (idx : BM25Index),
        (((sorted_doc_ids cm).zip
          (bm25_get_scores idx (process_query pre query))).filter
            (fun q => 0 < q.2)).length ≤ cm.documents.length := by
      intro idx
      calc (((sorted_doc_ids cm).zip
            (bm25_get_scores idx (process_query pre query))).filter
              (fun q => 0 < q.2)).length
          ≤ ((sorted_doc_ids cm).zip
              (bm25_get_scores idx (process_query pre query))).length :=
            List.length_filter_le _ _
        _ ≤ (sorted_doc_ids cm).length := by
            rw [List.length_zip]
            exact min_le_left _ _
        _ = cm.processed_terms.length := by
            unfold sorted_doc_ids
            rw [(List.perm_insertionSort _ _).length_eq, List.length_map]
        _ = cm.documents.length := hlenp
    have hmem : ∀ (idx : BM25Index),
        ∀ x ∈ ((sorted_doc_ids cm).zip
          (bm25_get_scores idx (process_query pre query))).filter
            (fun q => 0 < q.2), x.1 ∈ cm.documents.map DocInfo.id := by
      intro idx x hx
      have h1 := List.mem_of_mem_filter hx
      have h2 := (List.of_mem_zip h1).1
      rw [hwf.1]
      exact (List.perm_insertionSort _ _).subset h2
    have hnd : ∀ (idx : BM25Index),
        ((((sorted_doc_ids cm).zip
          (bm25_get_scores idx (process_query pre query))).filter
            (fun q => 0 < q.2)).map Prod.fst).Nodup := by
      intro idx
      refine List.pairwise_map.mpr ((bm25_candidates_pairwise cm hwf _).imp ?_)
      intro a b hab hfst
      rw [hfst] at hab
      exact lt_irrefl _ hab
    by_cases hparam : k1 ≠ (1.2 : ℝ) ∨ b ≠ (0.75 : ℝ)
    · rw [if_pos hparam]
      dsimp only
      exact ⟨_, rfl, rank_results_complete cm _ query _ _ (hmem _) (hnd _) (hcand _)⟩
    · rw [if_neg hparam]
      dsimp only
      exact ⟨_, rfl, rank_results_complete cm _ query _ _ (hmem _) (hnd _) (hcand _)⟩

/-- C10 witness: the concrete two-document corpus, a surviving query and
concrete scorers. -/
theorem C10_witness :
    (search_service_search cm2 pre0 (fun _ _ _ => []) (fun _ _ _ _ => [])
        0 0 0 "gato" 1.2 0.75 "log" none =
      search_service_search cm2 pre0 (fun _ _ _ => []) (fun _ _ _ _ => [])
        0 0 0 "gato" 1.2 0.75 "log" (some cm2.documents.length)) ∧
    ((tfidf_search cm2 pre0 "gato" "log" cm2.documents.length).map
      (fun r => (r.id, r.score))).Perm
      (tfidf_similarities cm2 (surviving_terms cm2 pre0 "gato")) ∧
    (∃ idx, (bm25_search cm2 pre0 svc0 "gato" 1.2 0.75
        cm2.documents.length).2.bm25_index = some idx ∧
      ((bm25_search cm2 pre0 svc0 "gato" 1.2 0.75 cm2.documents.length).1.map
        (fun r => (r.id, r.score))).Perm
        (((sorted_doc_ids cm2).zip
          (bm25_get_scores idx (process_query pre0 "gato"))).filter
            (fun q => 0 < q.2))) :=
  ⟨(C10_default_topk cm2 pre0 svc0 "gato" "log" 1.2 0.75 0 0 0
      (by decide) rfl rfl).1 _ _,
   (C10_default_topk cm2 pre0 svc0 "gato" "log" 1.2 0.75 0 0 0
      (by decide) rfl rfl).2.1 (by decide),
   (C10_default_topk cm2 pre0 svc0 "gato" "log" 1.2 0.75 0 0 0
      (by decide) rfl rfl).2.2 (by decide) (by decide)⟩

/-- C2 witness: the duplicated query on the concrete corpus: two equal
coordinates, each the weight of a term occurring twice in the query. -/
theorem C2_witness :
    (tfidf_query_vector cm2 (surviving_terms cm2 pre0 "gato gato")).getD 0 0 =
      tfWeight ((surviving_terms cm2 pre0 "gato gato").count
          ((surviving_terms cm2 pre0 "gato gato").getD 0 "")) *
        idfLookup cm2 ((surviving_terms cm2 pre0 "gato gato").getD 0 "") ∧
    (tfidf_query_vector cm2 (surviving_terms cm2 pre0 "gato gato")).getD 0 0 =
      (tfidf_query_vector cm2 (surviving_terms cm2 pre0 "gato gato")).getD 1 0 :=
  ⟨(C2_query_vector cm2 pre0 "gato gato").2.1 0 (by decide),
   (C2_query_vector cm2 pre0 "gato gato").2.2.1 0 1 (by decide) (by decide) (by decide)⟩

/-! ## C8: snippet windows are contiguous and word-aligned -/

lemma not_word_of_pySpace {c : Char} (h : isPySpace c = true) :
    isWordChar c = false := by
  simp only [isPySpace, Bool.or_eq_true, decide_eq_true_eq] at h
  rcases h with ((((rfl | rfl) | rfl) | rfl) | rfl) | rfl <;> decide

lemma not_word_of_ws {c : Char} (h : wsChars.contains c = true) :
    isWordChar c = false := by
  have hm : c ∈ wsChars := by simpa using h
  simp only [wsChars, List.mem_cons, List.not_mem_nil, or_false] at hm
  rcases hm with rfl | rfl | rfl <;> decide

lemma not_word_of_stop {c : Char} (h : stopChars.contains c = true) :
    isWordChar c = false := by
  have hm : c ∈ stopChars := by simpa using h
  simp only [stopChars, List.mem_cons, List.not_mem_nil, or_false] at hm
  rcases hm with rfl | rfl | rfl | rfl | rfl | rfl | rfl | rfl <;> decide

lemma not_word_getD_ge (text : List Char) (i : Nat) (h : text.length ≤ i) :
    isWordChar (text.getD i ' ') = false := by
  rw [List.getD_eq_default _ _ h]
  decide

lemma noSplitAt_zero (text : List Char) : noSplitAt text 0 = true := by
  simp [noSplitAt]

lemma noSplitAt_of_left {text : List Char} {i : Nat}
    (h : isWordChar (text.getD (i - 1) ' ') = false) : noSplitAt text i = true := by
  unfold noSplitAt
  rw [h]
  simp

lemma noSplitAt_of_right {text : List Char} {i : Nat}
    (h : isWordChar (text.getD i ' ') = false) : noSplitAt text i = true := by
  unfold noSplitAt
  rw [h]
  simp

lemma noSplitAt_of_ge {text : List Char} {i : Nat} (h : text.length ≤ i) :
    noSplitAt text i = true :=
  noSplitAt_of_right (not_word_getD_ge _ _ h)

lemma dropWhile_decomp (p : Char → Bool) (l : List Char) :
    ∃ a, a ≤ l.length ∧ l.dropWhile p = l.drop a ∧
      ∀ i, i < a → p (l.getD i ' ') = true := by
  induction l with
  | nil =>
    exact ⟨0, by simp, by simp, fun i hi => absurd hi (Nat.not_lt_zero i)⟩
  | cons c cs ih =>
    by_cases hc : p c = true
    · obtain ⟨a, ha, hd, hp⟩ := ih
      refine ⟨a + 1, by simpa using Nat.succ_le_succ ha, ?_, ?_⟩
      · rw [List.dropWhile_cons, if_pos hc]
        simpa using hd
      · intro i hi
        cases i with
        | zero => simpa using hc
        | succ j => simpa using hp j (by omega)
    · refine ⟨0, by omega, ?_, fun i hi => absurd hi (Nat.not_lt_zero i)⟩
      rw [List.dropWhile_cons, if_neg hc]
      simp

lemma rstrip_decomp (p : Char → Bool) (m : List Char) :
    ∃ b, b ≤ m.length ∧ (m.reverse.dropWhile p).reverse = m.take b ∧
      ∀ i, b ≤ i → i < m.length → p (m.getD i ' ') = true := by
  obtain ⟨a, ha, hd, hp⟩ := dropWhile_decomp p m.reverse
  rw [List.length_reverse] at ha
  refine ⟨m.length - a, by omega, ?_, ?_⟩
  · rw [hd, List.drop_reverse, List.reverse_reverse]
  · intro i hbi him
    have h1 : m.length - 1 - i < a := by omega
    have h2 := hp (m.length - 1 - i) h1
    have h1r : m.length - 1 - i < m.reverse.length := by
      rw [List.length_reverse]; omega
    rw [List.getD_eq_getElem _ ' ' h1r, List.getElem_reverse] at h2
    rw [List.getD_eq_getElem _ ' ' him]
    have h3 : m.length - 1 - (m.length - 1 - i) = i := by omega
    simpa [h3] using h2

lemma pyStrip_decomp (l : List Char) :
    ∃ a b, a ≤ b ∧ b ≤ l.length ∧ pyStrip l = (l.drop a).take (b - a) ∧
      (∀ i, i < a → isPySpace (l.getD i ' ') = true) ∧
      (∀ i, b ≤ i → i < l.length → isPySpace (l.getD i ' ') = true) := by
  obtain ⟨a, ha, hd, hpa⟩ := dropWhile_decomp isPySpace l
  obtain ⟨b', hb', ht, hpb⟩ := rstrip_decomp isPySpace (l.drop a)
  rw [List.length_drop] at hb'
  refine ⟨a, a + b', by omega, by omega, ?_, hpa, ?_⟩
  · unfold pyStrip
    rw [hd, ht]
    congr 1
    omega
  · intro i hbi him
    have hj : b' ≤ i - a := by omega
    have hjl : i - a < (l.drop a).length := by rw [List.length_drop]; omega
    have h2 := hpb (i - a) hj (by rw [List.length_drop]; omega)
    rw [List.getD_eq_getElem _ ' ' hjl, List.getElem_drop] at h2
    rw [List.getD_eq_getElem _ ' ' him]
    have h3 : a + (i - a) = i := by omega
    simpa [h3] using h2

lemma getD_window (text : List Char) (s0 e0 i : Nat) (hi : i < e0 - s0)
    (he0 : e0 ≤ text.length) :
    ((text.drop s0).take (e0 - s0)).getD i ' ' = text.getD (s0 + i) ' ' := by
  have h1 : i < ((text.drop s0).take (e0 - s0)).length := by
    rw [List.length_take, List.length_drop]; omega
  have h2 : s0 + i < text.length := by omega
  rw [List.getD_eq_getElem _ ' ' h1, List.getD_eq_getElem _ ' ' h2,
    List.getElem_take, List.getElem_drop]

lemma pyStrip_window (text : List Char) (s0 e0 : Nat) (hse : s0 ≤ e0)
    (he0 : e0 ≤ text.length) :
    ∃ s e, s0 ≤ s ∧ e ≤ e0 ∧
      pyStrip ((text.drop s0).take (e0 - s0)) = (text.drop s).take (e - s) ∧
      (s = s0 ∨ isWordChar (text.getD (s - 1) ' ') = false) ∧
      (e = e0 ∨ isWordChar (text.getD e ' ') = false) := by
  obtain ⟨a, b, hab, hbl, hstrip, hpa, hpb⟩ :=
    pyStrip_decomp ((text.drop s0).take (e0 - s0))
  have hWlen : ((text.drop s0).take (e0 - s0)).length = e0 - s0 := by
    rw [List.length_take, List.length_drop]; omega
  rw [hWlen] at hbl
  refine ⟨s0 + a, s0 + b, by omega, by omega, ?_, ?_, ?_⟩
  · rw [hstrip, List.drop_take, List.drop_drop, List.take_take]
    congr 1
    omega
  · by_cases ha0 : a = 0
    · left; omega
    · right
      have h2 := hpa (a - 1) (by omega)
      rw [getD_window text s0 e0 (a - 1) (by omega) he0] at h2
      have h3 : s0 + (a - 1) = s0 + a - 1 := by omega
      rw [h3] at h2
      exact not_word_of_pySpace h2
  · by_cases hb0 : b = e0 - s0
    · left; omega
    · right
      have h2 := hpb b (le_refl b) (by omega)
      rw [getD_window text s0 e0 b (by omega) he0] at h2
      exact not_word_of_pySpace h2

lemma adjust_start_spec (text : List Char) (d : Nat) :
    adjust_start text d = 0 ∨
      wsChars.contains (text.getD (adjust_start text d - 1) ' ') = true := by
  induction d with
  | zero => left; rfl
  | succ i ih =>
    simp only [adjust_start]
    split
    · next h => right; simpa using h
    · exact ih

lemma noSplitAt_adjust_start (text : List Char) (d : Nat) :
    noSplitAt text (adjust_start text d) = true := by
  rcases adjust_start_spec text d with h | h
  · rw [h]; exact noSplitAt_zero text
  · exact noSplitAt_of_left (not_word_of_ws h)

lemma adjust_end_fuel_le (fuel : Nat) : ∀ (text : List Char) (e : Nat),
    e ≤ text.length → adjust_end_fuel fuel text e ≤ text.length := by
  induction fuel with
  | zero => intro text e he; simpa [adjust_end_fuel] using he
  | succ f ih =>
    intro text e he
    simp only [adjust_end_fuel]
    split
    · exact he
    · next hlt =>
      split
      · omega
      · exact ih text (e + 1) (by omega)

lemma adjust_end_fuel_spec (fuel : Nat) : ∀ (text : List Char) (e : Nat),
    text.length ≤ e + fuel →
    text.length ≤ adjust_end_fuel fuel text e ∨
      stopChars.contains (text.getD (adjust_end_fuel fuel text e - 1) ' ') = true := by
  induction fuel with
  | zero => intro text e he; left; simpa [adjust_end_fuel] using he
  | succ f ih =>
    intro text e he
    simp only [adjust_end_fuel]
    split
    · next h => left; exact h
    · next h =>
      split
      · next hstop => right; simpa using hstop
      · exact ih text (e + 1) (by omega)

lemma noSplitAt_adjust_end (text : List Char) (e : Nat) :
    noSplitAt text (adjust_end text e) = true := by
  rcases adjust_end_fuel_spec (text.length + 1 - e) text e (by omega) with h | h
  · exact noSplitAt_of_ge h
  · exact noSplitAt_of_left (not_word_of_stop h)

lemma adjust_end_le (text : List Char) (e : Nat) (he : e ≤ text.length) :
    adjust_end text e ≤ text.length :=
  adjust_end_fuel_le _ text e he

lemma build_window_decomp (text : List Char) (bp ml ctx : Nat) :
    ∃ pre s e suf,
      (pre = ([] : List Char) ∨ pre = ['.', '.', '.']) ∧
      (suf = ([] : List Char) ∨ suf = ['.', '.', '.']) ∧
      build_window text bp ml ctx = pre ++ (text.drop s).take (e - s) ++ suf ∧
      noSplitAt text s = true ∧ noSplitAt text e = true := by
  unfold build_window
  dsimp only
  set s0 := adjust_start text (bp - ctx / 2) with hs0
  set e0 := adjust_end text (min text.length (bp + ml + ctx / 2)) with he0
  have he0_le : e0 ≤ text.length := adjust_end_le text _ (min_le_left _ _)
  by_cases hse : s0 ≤ e0
  · obtain ⟨s, e, hsge, hele, hcore, hsB, heB⟩ := pyStrip_window text s0 e0 hse he0_le
    refine ⟨if 0 < s0 then ['.', '.', '.'] else [], s, e,
      if e0 < text.length then ['.', '.', '.'] else [], ?_, ?_, ?_, ?_, ?_⟩
    · by_cases h : 0 < s0 <;> simp [h]
    · by_cases h : e0 < text.length <;> simp [h]
    · rw [hcore]
    · rcases hsB with rfl | h
      · exact noSplitAt_adjust_start text _
      · exact noSplitAt_of_left h
    · rcases heB with rfl | h
      · exact noSplitAt_adjust_end text _
      · exact noSplitAt_of_right h
  · refine ⟨if 0 < s0 then ['.', '.', '.'] else [], 0, 0,
      if e0 < text.length then ['.', '.', '.'] else [], ?_, ?_, ?_,
      noSplitAt_zero text, noSplitAt_zero text⟩
    · by_cases h : 0 < s0 <;> simp [h]
    · by_cases h : e0 < text.length <;> simp [h]
    · have h0 : e0 - s0 = 0 := by omega
      rw [h0]
      simp [pyStrip]

lemma truncate_decomp (text : List Char) (ctx : Nat) :
    ∃ pre s e suf,
      (pre = ([] : List Char) ∨ pre = ['.', '.', '.']) ∧
      (suf = ([] : List Char) ∨ suf = ['.', '.', '.']) ∧
      truncate_text text ctx = pre ++ (text.drop s).take (e - s) ++ suf ∧
      noSplitAt text s = true ∧
      (noSplitAt text e = true ∨ (pyFindSpace text ctx = none ∧ e = ctx)) := by
  unfold truncate_text
  split
  · next hlt =>
    rcases hfind : pyFindSpace text ctx with _ | i
    · dsimp only [Option.getD_none]
      obtain ⟨s, e, hsge, hele, hcore, hsB, heB⟩ :=
        pyStrip_window text 0 ctx (Nat.zero_le ctx) (le_of_lt hlt)
      refine ⟨[], s, e, ['.', '.', '.'], Or.inl rfl, Or.inr rfl, ?_, ?_, ?_⟩
      · rw [List.nil_append]
        simp only [List.drop_zero, Nat.sub_zero] at hcore
        rw [hcore]
      · rcases hsB with rfl | h
        · exact noSplitAt_zero text
        · exact noSplitAt_of_left h
      · rcases heB with rfl | h
        · right; exact ⟨rfl, rfl⟩
        · left; exact noSplitAt_of_right h
    · dsimp only [Option.getD_some]
      unfold pyFindSpace at hfind
      have hpi : text.getD i '?' = ' ' := by
        have h0 := List.find?_some hfind
        simpa using h0
      have hmi : i ∈ (List.range text.length).drop ctx :=
        List.mem_of_find?_eq_some hfind
      have hilen : i < text.length :=
        List.mem_range.mp (List.mem_of_mem_drop hmi)
      have hsp : text.getD i ' ' = ' ' := by
        rw [List.getD_eq_getElem _ '?' hilen] at hpi
        rw [List.getD_eq_getElem _ ' ' hilen]
        exact hpi
      obtain ⟨s, e, hsge, hele, hcore, hsB, heB⟩ :=
        pyStrip_window text 0 i (Nat.zero_le i) (le_of_lt hilen)
      refine ⟨[], s, e, ['.', '.', '.'], Or.inl rfl, Or.inr rfl, ?_, ?_, ?_⟩
      · rw [List.nil_append]
        simp only [List.drop_zero, Nat.sub_zero] at hcore
        rw [hcore]
      · rcases hsB with rfl | h
        · exact noSplitAt_zero text
        · exact noSplitAt_of_left h
      · left
        rcases heB with rfl | h
        · exact noSplitAt_of_right (by rw [hsp]; decide)
        · exact noSplitAt_of_right h
  · refine ⟨[], 0, text.length, [], Or.inl rfl, Or.inl rfl, ?_, noSplitAt_zero text,
      Or.inl (noSplitAt_of_ge (le_refl _))⟩
    simp

/-- C8: the snippet returned by extract_snippet always decomposes into an
optional leading ellipsis, a contiguous substring text[s:e] of the source
text and an optional trailing ellipsis; the left cut never splits a word,
and the right cut never splits a word EXCEPT in the no-match fallback on a
text longer than context_chars with no space at or after context_chars,
where the code cuts hard at exactly context_chars (and the matched-word
set is empty). -/
theorem C8_snippet_boundaries (text : String) (terms : List String) (ctx : Nat)
    (oq : Option String) :
    ∃ pre s e suf,
      (pre = ([] : List Char) ∨ pre = ['.', '.', '.']) ∧
      (suf = ([] : List Char) ∨ suf = ['.', '.', '.']) ∧
      (extract_snippet text terms ctx oq).1.data =
        pre ++ (text.data.drop s).take (e - s) ++ suf ∧
      noSplitAt text.data s = true ∧
      (noSplitAt text.data e = true ∨
        (pyFindSpace text.data ctx = none ∧ e = ctx ∧
          (extract_snippet text terms ctx oq).2 = [])) := by
  unfold extract_snippet
  split
  · obtain ⟨pre, s, e, suf, h1, h2, h3, h4, h5⟩ := truncate_decomp text.data ctx
    refine ⟨pre, s, e, suf, h1, h2, h3, h4, ?_⟩
    rcases h5 with h | ⟨ha, hb⟩
    · left; exact h
    · right; exact ⟨ha, hb, rfl⟩
  · dsimp only
    split
    · next term heq =>
      obtain ⟨pre, s, e, suf, h1, h2, h3, h4, h5⟩ :=
        build_window_decomp text.data
          (exact_pass (text.data.map pyLower) (snippet_terms oq)).1 term.length ctx
      exact ⟨pre, s, e, suf, h1, h2, h3, h4, Or.inl h5⟩
    · split
      · next w heq2 =>
        obtain ⟨pre, s, e, suf, h1, h2, h3, h4, h5⟩ :=
          build_window_decomp text.data
            (fuzzy_pass (text.data.map pyLower) (snippet_terms oq)).best_pos
            w.length ctx
        exact ⟨pre, s, e, suf, h1, h2, h3, h4, Or.inl h5⟩
      · obtain ⟨pre, s, e, suf, h1, h2, h3, h4, h5⟩ := truncate_decomp text.data ctx
        refine ⟨pre, s, e, suf, h1, h2, h3, h4, ?_⟩
        rcases h5 with h | ⟨ha, hb⟩
        · left; exact h
        · right; exact ⟨ha, hb, rfl⟩

/-! ## C9: the fuzzy pass of extract_snippet -/

/-- Invariant of the fuzzy loop: the best similarity never drops below the
0.70 threshold; while no word is selected the state is initial; a selected
word is a text word, eligible for one of the candidate terms, scored at
the recorded similarity and positioned at its first whole-word occurrence;
and every already-scanned eligible pair is dominated (strictly smaller
ratio, or equal ratio at no earlier a position). -/
def fuzzyInv (text : List Char) (sts : List (List Char))
    (pairs : List (List Char × List Char)) (st : FuzzyState) : Prop :=
  (7 / 10 : ℚ) ≤ st.best_similarity ∧
  (st.best_word = none → st.best_similarity = 7 / 10 ∧ st.best_pos = text.length) ∧
  (∀ w, st.best_word = some w →
    w ∈ text_words text ∧ findWholeWord text w = some st.best_pos ∧
    ∃ t ∈ sts, eligible t w = true ∧ simRatio t w = st.best_similarity) ∧
  (∀ p ∈ pairs, eligible p.1 p.2 = true →
    ∀ pos, findWholeWord text p.2 = some pos →
      simRatio p.1 p.2 < st.best_similarity ∨
      (simRatio p.1 p.2 = st.best_similarity ∧ st.best_pos ≤ pos))

lemma fuzzyInv_push_inel (text : List Char) (sts : List (List Char))
    (pairs : List (List Char × List Char)) (st : FuzzyState) (t w : List Char)
    (hinv : fuzzyInv text sts pairs st) (hel : eligible t w = false) :
    fuzzyInv text sts (pairs ++ [(t, w)]) st := by
  obtain ⟨h7, hnone, hsome, hdom⟩ := hinv
  refine ⟨h7, hnone, hsome, ?_⟩
  intro p hp he pos hpos
  rcases List.mem_append.mp hp with hp | hp
  · exact hdom p hp he pos hpos
  · simp only [List.mem_singleton] at hp
    subst hp
    rw [hel] at he
    cases he

lemma fuzzyInv_push_dom (text : List Char) (sts : List (List Char))
    (pairs : List (List Char × List Char)) (st : FuzzyState) (t w : List Char)
    (hinv : fuzzyInv text sts pairs st)
    (hnew : eligible t w = true → ∀ pos, findWholeWord text w = some pos →
      simRatio t w < st.best_similarity ∨
      (simRatio t w = st.best_similarity ∧ st.best_pos ≤ pos)) :
    fuzzyInv text sts (pairs ++ [(t, w)]) st := by
  obtain ⟨h7, hnone, hsome, hdom⟩ := hinv
  refine ⟨h7, hnone, hsome, ?_⟩
  intro p hp he pos hpos
  rcases List.mem_append.mp hp with hp | hp
  · exact hdom p hp he pos hpos
  · simp only [List.mem_singleton] at hp
    subst hp
    exact hnew he pos hpos

lemma fuzzy_step_inv (text : List Char) (sts : List (List Char))
    (pairs : List (List Char × List Char)) (st : FuzzyState)
    (t w : List Char) (ht : t ∈ sts) (hw : w ∈ text_words text)
    (hinv : fuzzyInv text sts pairs st) :
    fuzzyInv text sts (pairs ++ [(t, w)]) (fuzzy_step text t st w) := by
  unfold fuzzy_step
  split
  · next hskip1 =>
    apply fuzzyInv_push_inel text sts pairs st t w hinv
    unfold eligible
    rw [hskip1]
    rfl
  · next hskip1 =>
    have c1 : (w.length < 7 * t.length / 10 || 13 * t.length / 10 < w.length) = false := by
      simpa using hskip1
    split
    · next hskip2 =>
      apply fuzzyInv_push_inel text sts pairs st t w hinv
      unfold eligible
      rw [c1, hskip2]
      rfl
    · next hskip2 =>
      have c2 : (!(t.isEmpty) && !(w.isEmpty) && t.getD 0 ' ' != w.getD 0 ' ') = false := by
        simpa using hskip2
      have hel : eligible t w = true := by
        unfold eligible
        rw [c1, c2]
        rfl
      dsimp only
      split
      · next hle =>
        split
        · next pos hfw =>
          split
          · next hupd =>
            obtain ⟨h7, hnone, hsome, hdom⟩ := hinv
            refine ⟨le_trans h7 hle, by simp, ?_, ?_⟩
            · intro w' hw'
              simp only [Option.some_inj] at hw'
              subst hw'
              exact ⟨hw, hfw, t, ht, hel, rfl⟩
            · intro p hp he pos' hpos'
              rcases List.mem_append.mp hp with hp | hp
              · have hold := hdom p hp he pos' hpos'
                rcases hupd with hlt | ⟨heq, hplt⟩
                · rcases hold with h | ⟨h, _⟩
                  · left; exact lt_trans h hlt
                  · left; rw [h]; exact hlt
                · rcases hold with h | ⟨h, hle'⟩
                  · left; rw [heq]; exact h
                  · right
                    refine ⟨by rw [h, heq], ?_⟩
                    exact le_trans (le_of_lt hplt) hle'
              · simp only [List.mem_singleton] at hp
                subst hp
                rw [hfw] at hpos'
                simp only [Option.some_inj] at hpos'
                subst hpos'
                right
                exact ⟨rfl, le_refl _⟩
          · next hupd =>
            push_neg at hupd
            have hsimeq : simRatio t w = st.best_similarity :=
              le_antisymm (hupd.1) hle
            apply fuzzyInv_push_dom text sts pairs st t w hinv
            intro _ pos' hpos'
            rw [hfw] at hpos'
            simp only [Option.some_inj] at hpos'
            subst hpos'
            right
            exact ⟨hsimeq, hupd.2 hsimeq⟩
        · next hfw =>
          apply fuzzyInv_push_dom text sts pairs st t w hinv
          intro _ pos' hpos'
          rw [hfw] at hpos'
          cases hpos'
      · next hle =>
        apply fuzzyInv_push_dom text sts pairs st t w hinv
        intro _ pos' _
        left
        exact not_le.mp hle

lemma fuzzy_fold_words (text : List Char) (sts : List (List Char)) (t : List Char)
    (ht : t ∈ sts) :
    ∀ (ws : List (List Char)) (pairs : List (List Char × List Char))
      (st : FuzzyState), (∀ w ∈ ws, w ∈ text_words text) →
      fuzzyInv text sts pairs st →
      fuzzyInv text sts (pairs ++ ws.map (fun w => (t, w)))
        (ws.foldl (fuzzy_step text t) st) := by
  intro ws
  induction ws with
  | nil => intro pairs st _ h; simpa using h
  | cons w ws ih =>
    intro pairs st hmem hinv
    have h1 := fuzzy_step_inv text sts pairs st t w ht (hmem w (by simp)) hinv
    have h2 := ih (pairs ++ [(t, w)]) (fuzzy_step text t st w)
      (fun w' hw' => hmem w' (by simp [hw'])) h1
    simpa [List.append_assoc] using h2

lemma fuzzy_fold_terms (text : List Char) (sts : List (List Char)) :
    ∀ (ts : List (List Char)) (pairs : List (List Char × List Char))
      (st : FuzzyState), (∀ t ∈ ts, t ∈ sts) →
      fuzzyInv text sts pairs st →
      fuzzyInv text sts
        (pairs ++ ts.flatMap (fun t => (text_words text).map (fun w => (t, w))))
        (ts.foldl (fun st t => (text_words text).foldl (fuzzy_step text t) st) st) := by
  intro ts
  induction ts with
  | nil => intro pairs st _ h; simpa using h
  | cons t ts ih =>
    intro pairs st hmem hinv
    have h1 := fuzzy_fold_words text sts t (hmem t (by simp)) (text_words text)
      pairs st (fun _ hw => hw) hinv
    have h2 := ih (pairs ++ (text_words text).map (fun w => (t, w)))
      ((text_words text).foldl (fuzzy_step text t) st)
      (fun t' ht' => hmem t' (by simp [ht'])) h1
    simpa [List.append_assoc] using h2

lemma mkRat_seven_tenths : mkRat 7 10 = (7 / 10 : ℚ) := by
  norm_num [Rat.mkRat_eq_div]

lemma fuzzy_pass_inv (text : List Char) (sts : List (List Char)) :
    fuzzyInv text sts
      (sts.flatMap (fun t => (text_words text).map (fun w => (t, w))))
      (fuzzy_pass text sts) := by
  have h0 : fuzzyInv text sts [] ⟨mkRat 7 10, text.length, none⟩ :=
    ⟨le_of_eq mkRat_seven_tenths.symm, fun _ => ⟨mkRat_seven_tenths, rfl⟩,
      by simp, by simp⟩
  have h1 := fuzzy_fold_terms text sts sts [] ⟨mkRat 7 10, text.length, none⟩
    (fun _ ht => ht) h0
  simpa [fuzzy_pass] using h1

/-- C9: the fuzzy pass.  When the exact pass finds a whole-word match the
result of extract_snippet is determined by that match alone (the fuzzy
pass is irrelevant).  When the fuzzy pass selects a word, its similarity
is at least the 0.70 threshold, the word occurs in the text and the
recorded position is its first whole-word occurrence, the word is
eligible for one of the candidate terms (length within the FLOORED window
int(0.7*len)..int(1.3*len), equal first character) at exactly the
recorded best similarity, and every eligible candidate-term/text-word
pair is dominated: its ratio is strictly smaller, or equal with a
first-occurrence position no earlier than the selected one. -/
theorem C9_fuzzy_pass_rules (text : String) (terms : List String) (ctx : Nat)
    (oq : Option String) (w : List Char)
    (hne : ¬(text.data = [] ∨ terms = [])) :
    (∀ term, (exact_pass (text.data.map pyLower) (snippet_terms oq)).2.1 = some term →
      extract_snippet text terms ctx oq =
        (String.mk (build_window text.data
            (exact_pass (text.data.map pyLower) (snippet_terms oq)).1 term.length ctx),
          finalize_matched
            (exact_pass (text.data.map pyLower) (snippet_terms oq)).2.2)) ∧
    ((fuzzy_pass (text.data.map pyLower) (snippet_terms oq)).best_word = some w →
      (7 / 10 : ℚ) ≤
        (fuzzy_pass (text.data.map pyLower) (snippet_terms oq)).best_similarity ∧
      w ∈ text_words (text.data.map pyLower) ∧
      findWholeWord (text.data.map pyLower) w =
        some (fuzzy_pass (text.data.map pyLower) (snippet_terms oq)).best_pos ∧
      (∃ t ∈ snippet_terms oq, eligible t w = true ∧
        simRatio t w =
          (fuzzy_pass (text.data.map pyLower) (snippet_terms oq)).best_similarity) ∧
      (∀ t ∈ snippet_terms oq, ∀ w' ∈ text_words (text.data.map pyLower),
        eligible t w' = true →
        ∀ pos, findWholeWord (text.data.map pyLower) w' = some pos →
          simRatio t w' <
            (fuzzy_pass (text.data.map pyLower) (snippet_terms oq)).best_similarity ∨
          (simRatio t w' =
            (fuzzy_pass (text.data.map pyLower) (snippet_terms oq)).best_similarity ∧
            (fuzzy_pass (text.data.map pyLower) (snippet_terms oq)).best_pos ≤ pos))) := by
  constructor
  · intro term hterm
    unfold extract_snippet
    rw [if_neg hne]
    dsimp only
    rw [hterm]
  · intro hbw
    obtain ⟨h7, hnone, hsome, hdom⟩ :=
      fuzzy_pass_inv (text.data.map pyLower) (snippet_terms oq)
    obtain ⟨hwmem, hfw, t, ht, hel, hsim⟩ := hsome w hbw
    refine ⟨h7, hwmem, hfw, ⟨t, ht, hel, hsim⟩, ?_⟩
    intro t' ht' w' hw' hel' pos hpos
    exact hdom (t', w')
      (List.mem_flatMap.mpr ⟨t', ht', List.mem_map.mpr ⟨w', hw', rfl⟩⟩)
      hel' pos hpos

/-- C9 witness: on the text "abc xyz" with query "abcde" the fuzzy pass
selects a word; the theorem yields the threshold bound and that the
selected word is a word of the text. -/
theorem C9_witness :
    (7 / 10 : ℚ) ≤ (fuzzy_pass ("abc xyz".data.map pyLower)
        (snippet_terms (some "abcde"))).best_similarity ∧
    ['a', 'b', 'c'] ∈ text_words ("abc xyz".data.map pyLower) :=
  ⟨((C9_fuzzy_pass_rules "abc xyz" ["x"] 10 (some "abcde") ['a', 'b', 'c']
      (by decide)).2 (by decide)).1,
   ((C9_fuzzy_pass_rules "abc xyz" ["x"] 10 (some "abcde") ['a', 'b', 'c']
      (by decide)).2 (by decide)).2.1⟩

/-- C9 counterexample: for the candidate "abcde" (length 5) the fuzzy pass
selects the text word "abc" of length 3, below 70 percent of 5 (3 < 3.5):
the floored window int(0.7*5) = 3 admits it, refuting the stated
70-130 percent bound. -/
theorem C9_counterexample :
    (fuzzy_pass ("abc xyz".data.map pyLower)
        (snippet_terms (some "abcde"))).best_word = some ['a', 'b', 'c'] ∧
    ((['a', 'b', 'c'] : List Char).length : ℚ) <
      7 / 10 * ((['a', 'b', 'c', 'd', 'e'] : List Char).length : ℚ) ∧
    snippet_terms (some "abcde") = [['a', 'b', 'c', 'd', 'e']] := by
  refine ⟨by decide, by norm_num, by decide⟩

/-- C8 counterexample: a seven-character single word with context 5 and no
match: the fallback cuts hard at position 5, splitting the word (both
characters adjacent to the cut are word characters). -/
theorem C8_counterexample :
    extract_snippet "aaaaaaa" ["aaaaaaa"] 5 (some "zzzz") = ("aaaaa...", []) ∧
    isWordChar (("aaaaaaa" : String).data.getD 4 ' ') = true ∧
    isWordChar (("aaaaaaa" : String).data.getD 5 ' ') = true ∧
    noSplitAt ("aaaaaaa" : String).data 5 = false := by
  decide

end SSR
